import Mathlib

/-!
# A first-fit free-list allocator (`src/my_malloc.cpp`)

Shallow embedding of the allocator and theorems about it.

## Machine model

* LP64, little endian: `size_t` and pointers are 8 bytes, so
  `node_t = { size_t size; node_t *next; }` occupies 16 bytes (`size` at
  offset 0, `next` at offset 8) and `header_t = { size_t size; <int> magic; }`
  occupies 16 bytes (`size` at offset 0, `magic` at offset 8).
* Memory is a flat byte-addressed map.  All `size_t` and pointer arithmetic
  is reduced modulo `2 ^ 64`.  A multi-byte access at address `a` touches the
  bytes `a, a+1, ...`.
* Loops that walk the free list take a `fuel` argument bounding the number of
  loop-condition evaluations; running out of fuel is reported as
  `Halt.outOfFuel`.  A failed `assert` is reported as `Halt.assertFailed`.
* `include/my_malloc.h` is not part of the sources; the constants it defines
  (`HEAP_SIZE`, `MAGIC`), the width of the `magic` field, the signedness of
  plain `char` and the addresses handed out by `mmap` are parameters (`Cfg`).
* Not modelled: faults on accesses outside a mapped region (every address can
  be read and written), failure of `mmap`, and overflow of the `int` counter
  of `number_of_free_nodes` (a natural number here).
-/

namespace MyMalloc

/-! ## Configuration -/

/-- Parameters of the build and of the environment: the two constants of the
absent header, the width in bytes of `header_t::magic`, whether plain `char`
is signed on the target, and the address returned by the `k`-th `mmap` call. -/
structure Cfg where
  HEAP_SIZE : Nat
  MAGIC : Nat
  magicBytes : Nat
  charSigned : Bool
  mmap : Nat → Nat

/-- The value of `sizeof(node_t)` on LP64. -/
def sizeof_node_t : Nat := 16

/-- The value of `sizeof(header_t)` on LP64. -/
def sizeof_header_t : Nat := 16

/-- Number of distinct `size_t` values. -/
def W : Nat := 2 ^ 64

/-- The `k`-th region handed out by `mmap` is a real region: its base is not
`NULL` and it ends below the top of the 64-bit address space. -/
def Cfg.RegionOK (cfg : Cfg) (k : Nat) : Prop :=
  cfg.mmap k ≠ 0 ∧ cfg.mmap k + cfg.HEAP_SIZE < W

/-- The region can hold the initial node and arithmetic on `HEAP_SIZE` does not wrap. -/
def Cfg.SizeOK (cfg : Cfg) : Prop :=
  sizeof_node_t ≤ cfg.HEAP_SIZE ∧ cfg.HEAP_SIZE < W

/-- The constant `MAGIC` fits the `magic` field, which is 1 to 8 bytes wide. -/
def Cfg.MagicOK (cfg : Cfg) : Prop :=
  1 ≤ cfg.magicBytes ∧ cfg.magicBytes ≤ 8 ∧ cfg.MAGIC < 256 ^ cfg.magicBytes

instance (cfg : Cfg) (k : Nat) : Decidable (cfg.RegionOK k) := by
  unfold Cfg.RegionOK; exact inferInstance

instance (cfg : Cfg) : Decidable cfg.SizeOK := by
  unfold Cfg.SizeOK; exact inferInstance

instance (cfg : Cfg) : Decidable cfg.MagicOK := by
  unfold Cfg.MagicOK; exact inferInstance

/-! ## Memory -/

/-- Byte-addressed memory. -/
abbrev Mem := Nat → Nat

/-- Little-endian read of `n` bytes starting at `a`. -/
def rdN (m : Mem) (a : Nat) : Nat → Nat
  | 0 => 0
  | n + 1 => m a % 256 + 256 * rdN m (a + 1) n

/-- Little-endian write of the low `n` bytes of `v` starting at `a`. -/
def wrN (m : Mem) (a n v : Nat) : Mem :=
  fun x => if a ≤ x ∧ x < a + n then v / 256 ^ (x - a) % 256 else m x

/-- Read one byte. -/
def rd8 (m : Mem) (a : Nat) : Nat := m a % 256

/-- Read a `size_t` or a pointer. -/
def rd64 (m : Mem) (a : Nat) : Nat := rdN m a 8

/-- Write a `size_t` or a pointer. -/
def wr64 (m : Mem) (a v : Nat) : Mem := wrN m a 8 v

/-- A fresh anonymous mapping: `len` zero bytes at `b`. -/
def zfill (m : Mem) (b len : Nat) : Mem :=
  fun x => if b ≤ x ∧ x < b + len then 0 else m x

/-- The field `p->size` of a `node_t` or `header_t` at `p`. -/
def size_of (m : Mem) (p : Nat) : Nat := rd64 m p

/-- The field `p->next` of a `node_t` at `p`. -/
def next_of (m : Mem) (p : Nat) : Nat := rd64 m (p + 8)

/-- The field `p->magic` of a `header_t` at `p`. -/
def magic_of (cfg : Cfg) (m : Mem) (p : Nat) : Nat := rdN m (p + 8) cfg.magicBytes

/-- Conversion of a plain `char` holding byte `b` to `size_t` (integer
promotion followed by conversion to unsigned). -/
def charToSize (cfg : Cfg) (b : Nat) : Nat :=
  if cfg.charSigned ∧ 128 ≤ b then W - 256 + b else b

/-! ## Program state -/

/-- The global `head` (0 is `NULL`), the memory, and the number of `mmap`
calls made so far. -/
structure Heap where
  head : Nat
  mem : Mem
  regions : Nat

/-- Ways a call does not return. -/
inductive Halt where
  | assertFailed
  | outOfFuel
  deriving DecidableEq, Repr

/-- State before the first call of `heap()`: `head == NULL`, nothing mapped. -/
def Heap.initial (m : Mem) : Heap := { head := 0, mem := m, regions := 0 }

/-! ## The functions of `my_malloc.cpp` -/

/-- Embedding of `heap()`. -/
def heap (cfg : Cfg) (s : Heap) : Heap :=
  if s.head = 0 then
    let b := cfg.mmap s.regions
    let m0 := zfill s.mem b cfg.HEAP_SIZE
    let m1 := wr64 m0 b ((cfg.HEAP_SIZE + W - sizeof_node_t) % W)
    let m2 := wr64 m1 (b + 8) 0
    { head := b, mem := m2, regions := s.regions + 1 }
  else s

/-- Embedding of `reset_heap()`.  The bytes of the unmapped region are left as
they are; the next region comes from the next `mmap` call. -/
def reset_heap (cfg : Cfg) (s : Heap) : Heap :=
  if s.head ≠ 0 then heap cfg { s with head := 0 } else s

/-- Embedding of `free_list()`. -/
def free_list (s : Heap) : Nat := s.head

/-- The loop of `available_memory`. -/
def available_memory_loop (m : Mem) : Nat → Nat → Nat → Except Halt Nat
  | 0, _, _ => .error .outOfFuel
  | fuel + 1, p, n =>
    if p = 0 then .ok n
    else available_memory_loop m fuel (next_of m p) ((n + size_of m p) % W)

/-- Embedding of `available_memory()`: the result and the state left by `heap()`. -/
def available_memory (cfg : Cfg) (fuel : Nat) (s : Heap) : Except Halt Nat × Heap :=
  let s1 := heap cfg s
  (available_memory_loop s1.mem fuel s1.head 0, s1)

/-- The loop of `number_of_free_nodes`. -/
def number_of_free_nodes_loop (m : Mem) : Nat → Nat → Nat → Except Halt Nat
  | 0, _, _ => .error .outOfFuel
  | fuel + 1, p, count =>
    if p = 0 then .ok count
    else number_of_free_nodes_loop m fuel (next_of m p) (count + 1)

/-- Embedding of `number_of_free_nodes()`: the result and the state left by `heap()`. -/
def number_of_free_nodes (cfg : Cfg) (fuel : Nat) (s : Heap) : Except Halt Nat × Heap :=
  let s1 := heap cfg s
  (number_of_free_nodes_loop s1.mem fuel s1.head 0, s1)

/-- The loop of `find_free`; returns the final values of `*found` and `*previous`. -/
def find_free_loop (m : Mem) (space : Nat) :
    Nat → Nat → Nat → Nat → Nat → Except Halt (Nat × Nat)
  | 0, _, _, _, _ => .error .outOfFuel
  | fuel + 1, current_node, previous_node, found, previous =>
    if current_node = 0 then .ok (found, previous)
    else if space ≤ size_of m current_node then .ok (current_node, previous_node)
    else find_free_loop m space fuel (next_of m current_node) current_node found previous

/-- Embedding of `find_free(size, &found, &previous)`: takes the values the two
out-parameters hold on entry and returns the values they hold on exit, with
the state left by `heap()`. -/
def find_free (cfg : Cfg) (fuel size found previous : Nat) (s : Heap) :
    Except Halt (Nat × Nat) × Heap :=
  let s1 := heap cfg s
  let space := (sizeof_header_t + size) % W
  (find_free_loop s1.mem space fuel s1.head 0 found previous, s1)

/-- Embedding of `split(size, &previous, &free_block, &allocated)`: returns the
final `*free_block`, `*allocated` and the state. -/
def split (cfg : Cfg) (size previous free_block : Nat) (s : Heap) :
    Except Halt (Nat × Nat × Heap) :=
  if free_block = 0 then .error .assertFailed
  else
    let pointer := free_block
    let actual_size := (size + sizeof_header_t) % W
    let allocated_space := (pointer + actual_size) % W
    let fits := decide (charToSize cfg (rd8 s.mem allocated_space) ≤ size_of s.mem free_block)
    let free_block1 := if fits then allocated_space else 0
    let m1 := if fits then
        wr64 s.mem allocated_space ((size_of s.mem pointer + W - actual_size) % W)
      else s.mem
    let head1 := if previous = 0 then free_block1 else s.head
    let m2 := if previous = 0 then m1 else wr64 m1 (previous + 8) free_block1
    let allocated := pointer
    let m3 := wr64 m2 allocated size
    let m4 := wrN m3 (allocated + 8) cfg.magicBytes cfg.MAGIC
    .ok (free_block1, allocated, { head := head1, mem := m4, regions := s.regions })

/-- Embedding of `my_malloc(size)`: the returned pointer (0 is `NULL`) and the state. -/
def my_malloc (cfg : Cfg) (fuel size : Nat) (s : Heap) : Except Halt (Nat × Heap) :=
  match find_free cfg fuel size 0 0 s with
  | (.error e, _) => .error e
  | (.ok (found, previous), s1) =>
    if found = 0 then .ok (0, s1)
    else
      match split cfg size previous found s1 with
      | .error e => .error e
      | .ok (_, allocated, s2) => .ok ((allocated + sizeof_header_t) % W, s2)

/-- The loop of `coalesce`. -/
def coalesce_loop (m : Mem) (block_size : Nat) : Nat → Nat → Except Halt Mem
  | 0, _ => .error .outOfFuel
  | fuel + 1, current_node =>
    if next_of m current_node = 0 then .ok m
    else if (current_node + block_size) % W = next_of m current_node then
      let m1 := wr64 m current_node
        ((size_of m current_node +
          (size_of m (next_of m current_node) + sizeof_node_t) % W) % W)
      let m2 := wr64 m1 (current_node + 8) (next_of m1 (next_of m1 current_node))
      .ok m2
    else coalesce_loop m block_size fuel (next_of m current_node)

/-- Embedding of `coalesce(free_block)`. -/
def coalesce (fuel free_block : Nat) (s : Heap) : Except Halt Heap :=
  let block_size := (size_of s.mem free_block + sizeof_node_t) % W
  match coalesce_loop s.mem block_size fuel free_block with
  | .error e => .error e
  | .ok m => .ok { s with mem := m }

/-- Embedding of `my_free(allocated)`. -/
def my_free (cfg : Cfg) (fuel allocated : Nat) (s : Heap) : Except Halt Heap :=
  let node_to_free := (allocated + W - sizeof_header_t) % W
  if magic_of cfg s.mem node_to_free ≠ cfg.MAGIC then .error .assertFailed
  else
    let free_memory := node_to_free
    let m1 := wr64 s.mem free_memory (size_of s.mem node_to_free)
    let m2 := wr64 m1 (free_memory + 8) s.head
    coalesce fuel free_memory { s with head := free_memory, mem := m2 }

/-! ## Vocabulary for stating properties -/

/-- `IsList m p l`: following the `next` links from `p` visits exactly the
nodes at the addresses `l`, in that order, and then reaches `NULL`. -/
def IsList (m : Mem) : Nat → List Nat → Prop
  | p, [] => p = 0
  | p, a :: l => p = a ∧ a ≠ 0 ∧ IsList m (next_of m a) l

instance instDecidableIsList (m : Mem) : (p : Nat) → (l : List Nat) → Decidable (IsList m p l)
  | p, [] => by unfold IsList; exact inferInstance
  | p, a :: l => by
    unfold IsList
    have := instDecidableIsList m (next_of m a) l
    exact inferInstance

/-- The 16-byte headers at `a` and `b` do not overlap. -/
def Sep (a b : Nat) : Prop := a + 16 ≤ b ∨ b + 16 ≤ a

instance (a b : Nat) : Decidable (Sep a b) := by
  unfold Sep; exact inferInstance

/-- Memory after merging node `y` into node `x`. -/
def mergeNodes (m : Mem) (x y : Nat) : Mem :=
  wr64 (wr64 m x ((size_of m x + (size_of m y + sizeof_node_t) % W) % W)) (x + 8) (next_of m y)

/-- No two list-consecutive nodes of `l` satisfy the adjacency test of
`coalesce` for block size `bs`. -/
def NoAdj (bs : Nat) (l : List Nat) : Prop :=
  List.Chain' (fun u v => (u + bs) % W ≠ v) l

/-- One call of a client: `malloc n` is `my_malloc(n)`, `free i` is `my_free`
of the pointer returned by the `i`-th `malloc` of the trace (counting from 0). -/
inductive Op where
  | malloc (size : Nat)
  | free (i : Nat)

/-- Runs a trace of calls from state `s`; `ps` collects the pointers returned
by the `malloc` calls in call order. -/
def run (cfg : Cfg) (fuel : Nat) : List Op → Heap → List Nat → Except Halt (Heap × List Nat)
  | [], s, ps => .ok (s, ps)
  | .malloc n :: ops, s, ps =>
    match my_malloc cfg fuel n s with
    | .error e => .error e
    | .ok (p, s1) => run cfg fuel ops s1 (ps ++ [p])
  | .free i :: ops, s, ps =>
    match my_free cfg fuel (ps.getD i 0) s with
    | .error e => .error e
    | .ok s1 => run cfg fuel ops s1 ps

/-- A page-sized heap with a signed plain `char` (as on x86-64), used for
concrete runs. -/
def cfgPage : Cfg :=
  { HEAP_SIZE := 4096, MAGIC := 1234567, magicBytes := 4, charSigned := true,
    mmap := fun k => 0x7f0000000000 + k * 0x10000 }

/-- The same heap on a target whose plain `char` is unsigned (as on AArch64). -/
def cfgPageU : Cfg := { cfgPage with charSigned := false }

/-- All-zero memory. -/
def zeroMem : Mem := fun _ => 0

/-- The state after the first call of `heap()` on all-zero memory. -/
def fresh (cfg : Cfg) : Heap := heap cfg (Heap.initial zeroMem)

/-- The final state of a trace (the state before the first `heap()` if the
trace does not return). -/
def stateAfter (r : Except Halt (Heap × List Nat)) : Heap :=
  match r with
  | .ok (s, _) => s
  | .error _ => Heap.initial zeroMem

/-- The page-sized heap after one `my_malloc(100)`. -/
def oneBlock : Heap := stateAfter (run cfgPage 5 [.malloc 100] (fresh cfgPage) [])

/-- A page-sized heap whose base address makes the address of the free node at
offset 1671 agree with `MAGIC` in its low four bytes. -/
def cfgCollide : Cfg :=
  { HEAP_SIZE := 4096, MAGIC := 1234567, magicBytes := 4, charSigned := true,
    mmap := fun k => 0x7f000012d000 + k * 0x10000 }

/-- The colliding heap after `A = my_malloc(8)`, `my_malloc(1631)`, `my_free(A)`. -/
def collided : Heap :=
  stateAfter (run cfgCollide 10 [.malloc 8, .malloc 1631, .free 0] (fresh cfgCollide) [])

/-- The page-sized heap after `A = my_malloc(64)`, `my_malloc(64)`, `my_free(A)`:
free nodes of sizes 64 and 3920. -/
def twoNodes : Heap :=
  stateAfter (run cfgPage 10 [.malloc 64, .malloc 64, .free 0] (fresh cfgPage) [])

/-- A heap with room for exactly one 100-byte payload and two headers. -/
def cfgOne : Cfg := { cfgPage with HEAP_SIZE := 132 }

/-- The state of `my_free` between `head = free_memory` and `coalesce(head)`,
for the header at `a`. -/
def pushed (a : Nat) (s : Heap) : Heap :=
  { head := a, mem := wr64 (wr64 s.mem a (size_of s.mem a)) (a + 8) s.head,
    regions := s.regions }

/-- The pointers returned by successive allocations of payload sizes `sizes`
laid out contiguously from address `b`. -/
def offsets : Nat → List Nat → List Nat
  | _, [] => []
  | b, sz :: rest => (b + sizeof_header_t) :: offsets (b + sizeof_header_t + sz) rest

/-- Total footprint (header and payload) of blocks with payload sizes `sizes`. -/
def footprint (sizes : List Nat) : Nat := (sizes.map (fun sz => sizeof_header_t + sz)).sum

/-! ## Memory lemmas -/

theorem rdN_lt (m : Mem) (a n : Nat) : rdN m a n < 256 ^ n := by
  induction n generalizing a with
  | zero => simp [rdN]
  | succ n ih =>
    have h1 := ih (a + 1)
    have h2 : m a % 256 < 256 := Nat.mod_lt _ (by norm_num)
    rw [rdN, pow_succ]
    omega

theorem rdN_congr (m1 m2 : Mem) (a n : Nat) (h : ∀ i, i < n → m1 (a + i) = m2 (a + i)) :
    rdN m1 a n = rdN m2 a n := by
  induction n generalizing a with
  | zero => rfl
  | succ n ih =>
    have h0 : m1 a = m2 a := by simpa using h 0 (Nat.succ_pos n)
    have h1 : rdN m1 (a + 1) n = rdN m2 (a + 1) n := by
      apply ih
      intro i hi
      have := h (i + 1) (by omega)
      rwa [show a + 1 + i = a + (i + 1) by omega]
    simp [rdN, h0, h1]

theorem wrN_in (m : Mem) (a n v x : Nat) (h1 : a ≤ x) (h2 : x < a + n) :
    wrN m a n v x = v / 256 ^ (x - a) % 256 := by
  simp [wrN, h1, h2]

theorem wrN_out (m : Mem) (a n v x : Nat) (h : x < a ∨ a + n ≤ x) :
    wrN m a n v x = m x := by
  unfold wrN
  rw [if_neg]
  omega

theorem rdN_wrN_disj (m : Mem) (a n v b k : Nat) (h : b + k ≤ a ∨ a + n ≤ b) :
    rdN (wrN m a n v) b k = rdN m b k := by
  apply rdN_congr
  intro i hi
  apply wrN_out
  omega

theorem rdN_wrN_aux (m : Mem) (a n v : Nat) (j k : Nat) (h : k + j ≤ n) :
    rdN (wrN m a n v) (a + k) j = v / 256 ^ k % 256 ^ j := by
  induction j generalizing k with
  | zero => simp [rdN, Nat.mod_one]
  | succ j ih =>
    have h1 := ih (k + 1) (by omega)
    rw [rdN, show a + k + 1 = a + (k + 1) by omega, h1, wrN_in m a n v (a + k) (by omega) (by omega)]
    rw [show a + k - a = k by omega]
    rw [Nat.mod_mod]
    have e1 : v / 256 ^ (k + 1) = v / 256 ^ k / 256 := by
      rw [pow_succ, Nat.div_div_eq_div_mul]
    rw [e1, pow_succ, Nat.mul_comm (256 ^ j) 256, Nat.mod_mul]

theorem rdN_wrN_same (m : Mem) (a n v : Nat) : rdN (wrN m a n v) a n = v % 256 ^ n := by
  have := rdN_wrN_aux m a n v n 0 (by omega)
  simpa using this

theorem W_eq : W = 256 ^ 8 := by norm_num [W]

theorem W_val : W = 18446744073709551616 := by norm_num [W]

theorem rd64_lt (m : Mem) (a : Nat) : rd64 m a < W := by
  rw [W_eq]; exact rdN_lt m a 8

theorem rd64_wr64_same (m : Mem) (a v : Nat) : rd64 (wr64 m a v) a = v % W := by
  rw [W_eq]; exact rdN_wrN_same m a 8 v

theorem rd64_wr64_same_lt (m : Mem) (a v : Nat) (h : v < W) : rd64 (wr64 m a v) a = v := by
  rw [rd64_wr64_same, Nat.mod_eq_of_lt h]

theorem rd64_wr64_disj (m : Mem) (a v b : Nat) (h : b + 8 ≤ a ∨ a + 8 ≤ b) :
    rd64 (wr64 m a v) b = rd64 m b :=
  rdN_wrN_disj m a 8 v b 8 h

theorem rd64_wrN_disj (m : Mem) (a n v b : Nat) (h : b + 8 ≤ a ∨ a + n ≤ b) :
    rd64 (wrN m a n v) b = rd64 m b :=
  rdN_wrN_disj m a n v b 8 h

theorem rdN_wr64_disj (m : Mem) (a v b k : Nat) (h : b + k ≤ a ∨ a + 8 ≤ b) :
    rdN (wr64 m a v) b k = rdN m b k :=
  rdN_wrN_disj m a 8 v b k h

theorem rd8_wrN_disj (m : Mem) (a n v b : Nat) (h : b < a ∨ a + n ≤ b) :
    rd8 (wrN m a n v) b = rd8 m b := by
  unfold rd8; rw [wrN_out m a n v b h]

theorem rd8_wr64_disj (m : Mem) (a v b : Nat) (h : b < a ∨ a + 8 ≤ b) :
    rd8 (wr64 m a v) b = rd8 m b :=
  rd8_wrN_disj m a 8 v b h

theorem rd8_wr64_in (m : Mem) (a v b : Nat) (h1 : a ≤ b) (h2 : b < a + 8) :
    rd8 (wr64 m a v) b = v / 256 ^ (b - a) % 256 := by
  unfold rd8 wr64; rw [wrN_in m a 8 v b h1 h2, Nat.mod_mod]

theorem zfill_in (m : Mem) (b len x : Nat) (h1 : b ≤ x) (h2 : x < b + len) :
    zfill m b len x = 0 := by
  simp [zfill, h1, h2]

theorem rdN_zero (m : Mem) (a n : Nat) (h : ∀ i, i < n → m (a + i) = 0) : rdN m a n = 0 := by
  induction n generalizing a with
  | zero => rfl
  | succ n ih =>
    have h0 : m a = 0 := by simpa using h 0 (Nat.succ_pos n)
    have h1 : rdN m (a + 1) n = 0 := by
      apply ih
      intro i hi
      have := h (i + 1) (by omega)
      rwa [show a + 1 + i = a + (i + 1) by omega]
    simp [rdN, h0, h1]

theorem rd64_zfill (m : Mem) (b len a : Nat) (h1 : b ≤ a) (h2 : a + 8 ≤ b + len) :
    rd64 (zfill m b len) a = 0 := by
  apply rdN_zero
  intro i hi
  exact zfill_in m b len (a + i) (by omega) (by omega)

theorem rd8_zfill (m : Mem) (b len a : Nat) (h1 : b ≤ a) (h2 : a < b + len) :
    rd8 (zfill m b len) a = 0 := by
  unfold rd8; rw [zfill_in m b len a h1 h2]

/-! ## `heap`, `available_memory`, `number_of_free_nodes` -/

theorem heap_of_ne (cfg : Cfg) (s : Heap) (h : s.head ≠ 0) : heap cfg s = s := by
  simp [heap, h]

theorem heap_fresh (cfg : Cfg) (s : Heap) (h0 : s.head = 0) (hz : cfg.SizeOK) :
    (heap cfg s).head = cfg.mmap s.regions ∧
    (heap cfg s).regions = s.regions + 1 ∧
    size_of (heap cfg s).mem (cfg.mmap s.regions) = cfg.HEAP_SIZE - sizeof_node_t ∧
    next_of (heap cfg s).mem (cfg.mmap s.regions) = 0 := by
  obtain ⟨hz1, hz2⟩ := hz
  simp only [sizeof_node_t] at hz1 ⊢
  have e : (cfg.HEAP_SIZE + W - 16) % W = cfg.HEAP_SIZE - 16 := by
    rw [show cfg.HEAP_SIZE + W - 16 = (cfg.HEAP_SIZE - 16) + W by omega, Nat.add_mod_right]
    exact Nat.mod_eq_of_lt (by omega)
  refine ⟨by simp [heap, h0], by simp [heap, h0], ?_, ?_⟩
  · simp only [heap, h0, if_true, size_of, sizeof_node_t]
    rw [rd64_wr64_disj _ _ _ _ (by omega), rd64_wr64_same, e]
    exact Nat.mod_eq_of_lt (by omega)
  · simp only [heap, h0, if_true, next_of]
    rw [rd64_wr64_same]; rfl

/-! ## List walks, `find_free`, `split`, `coalesce` -/

theorem find_free_loop_ok (m : Mem) (space : Nat) (l : List Nat) :
    ∀ (fuel p prev f0 p0 a pv : Nat), IsList m p l →
      find_free_loop m space fuel p prev f0 p0 = .ok (a, pv) →
      (a = f0 ∧ pv = p0 ∧ ∀ x ∈ l, size_of m x < space) ∨ (a ∈ l ∧ space ≤ size_of m a) := by
  induction l with
  | nil =>
    intro fuel p prev f0 p0 a pv hl h
    cases fuel with
    | zero => simp [find_free_loop] at h
    | succ fuel =>
      have hp : p = 0 := hl
      simp [find_free_loop, hp] at h
      left; exact ⟨h.1.symm, h.2.symm, by simp⟩
  | cons x l ih =>
    intro fuel p prev f0 p0 a pv hl h
    obtain ⟨hpx, hx0, hrest⟩ := hl
    subst hpx
    cases fuel with
    | zero => simp [find_free_loop] at h
    | succ fuel =>
      by_cases hfit : space ≤ size_of m p
      · simp [find_free_loop, hx0, hfit] at h
        right; rw [← h.1]; exact ⟨List.mem_cons_self _ _, hfit⟩
      · simp only [find_free_loop, hx0, hfit, if_false] at h
        rcases ih fuel _ _ f0 p0 a pv hrest h with ⟨h1, h2, h3⟩ | ⟨h1, h2⟩
        · left
          refine ⟨h1, h2, ?_⟩
          intro y hy
          rcases List.mem_cons.mp hy with rfl | hy
          · omega
          · exact h3 y hy
        · right; exact ⟨List.mem_cons_of_mem _ h1, h2⟩

theorem find_free_loop_none (m : Mem) (space : Nat) (l : List Nat) :
    ∀ (fuel p prev f0 p0 : Nat), IsList m p l → l.length < fuel →
      (∀ x ∈ l, size_of m x < space) →
      find_free_loop m space fuel p prev f0 p0 = .ok (f0, p0) := by
  induction l with
  | nil =>
    intro fuel p prev f0 p0 hl hf _
    have hp : p = 0 := hl
    obtain ⟨f, rfl⟩ : ∃ f, fuel = f + 1 := ⟨fuel - 1, by simp at hf; omega⟩
    simp [find_free_loop, hp]
  | cons x l ih =>
    intro fuel p prev f0 p0 hl hf hsmall
    obtain ⟨hpx, hx0, hrest⟩ := hl
    subst hpx
    obtain ⟨f, rfl⟩ : ∃ f, fuel = f + 1 := ⟨fuel - 1, by simp at hf; omega⟩
    have h1 : ¬ space ≤ size_of m p := by
      have := hsmall p (List.mem_cons_self _ _); omega
    simp only [find_free_loop, hx0, h1, if_false]
    exact ih f _ _ f0 p0 hrest (by simp at hf; omega)
      (fun y hy => hsmall y (List.mem_cons_of_mem _ hy))

/-- First fit: the list splits as `pre ++ a :: post` with every node of `pre` too small. -/
theorem find_free_loop_first (m : Mem) (space : Nat) (pre : List Nat) (a : Nat)
    (post : List Nat) :
    ∀ (fuel p prev f0 p0 : Nat), IsList m p (pre ++ a :: post) → pre.length < fuel →
      (∀ x ∈ pre, size_of m x < space) → space ≤ size_of m a →
      find_free_loop m space fuel p prev f0 p0
        = .ok (a, (prev :: pre).getLast (List.cons_ne_nil prev pre)) := by
  induction pre with
  | nil =>
    intro fuel p prev f0 p0 hl hf _ hfit
    obtain ⟨hpx, hx0, -⟩ := hl
    subst hpx
    obtain ⟨f, rfl⟩ : ∃ f, fuel = f + 1 := ⟨fuel - 1, by simp at hf; omega⟩
    simp [find_free_loop, hx0, hfit]
  | cons x pre ih =>
    intro fuel p prev f0 p0 hl hf hsmall hfit
    obtain ⟨hpx, hx0, hrest⟩ := hl
    subst hpx
    obtain ⟨f, rfl⟩ : ∃ f, fuel = f + 1 := ⟨fuel - 1, by simp at hf; omega⟩
    have h1 : ¬ space ≤ size_of m p := by
      have := hsmall p (List.mem_cons_self _ _); omega
    simp only [find_free_loop, hx0, h1, if_false]
    rw [ih f _ p f0 p0 hrest (by simp at hf; omega)
      (fun y hy => hsmall y (List.mem_cons_of_mem _ hy)) hfit]
    simp [List.getLast_cons_cons]

theorem exists_first_fit (m : Mem) (space : Nat) (l : List Nat)
    (h : ∃ x ∈ l, space ≤ size_of m x) :
    ∃ pre a post, l = pre ++ a :: post ∧ (∀ x ∈ pre, size_of m x < space) ∧
      space ≤ size_of m a := by
  induction l with
  | nil => obtain ⟨x, hx, _⟩ := h; simp at hx
  | cons y l ih =>
    by_cases hy : space ≤ size_of m y
    · exact ⟨[], y, l, rfl, by simp, hy⟩
    · obtain ⟨x, hx, hfit⟩ := h
      rcases List.mem_cons.mp hx with rfl | hx
      · exact absurd hfit hy
      · obtain ⟨pre, a, post, e, h1, h2⟩ := ih ⟨x, hx, hfit⟩
        refine ⟨y :: pre, a, post, by simp [e], ?_, h2⟩
        intro z hz
        rcases List.mem_cons.mp hz with rfl | hz
        · omega
        · exact h1 z hz


theorem rdN_wrN_same_lt (m : Mem) (a n v : Nat) (h : v < 256 ^ n) :
    rdN (wrN m a n v) a n = v := by
  rw [rdN_wrN_same, Nat.mod_eq_of_lt h]

theorem split_ok (cfg : Cfg) (size previous fb : Nat) (s : Heap) (h : fb ≠ 0) :
    ∃ fb1 s2, split cfg size previous fb s = .ok (fb1, fb, s2) ∧
      size_of s2.mem fb = size % W ∧
      magic_of cfg s2.mem fb = cfg.MAGIC % 256 ^ cfg.magicBytes ∧
      s2.regions = s.regions := by
  simp only [split, h, if_false]
  refine ⟨_, _, rfl, ?_, ?_, rfl⟩
  · simp only [size_of]
    rw [rd64_wrN_disj _ _ _ _ _ (by omega), rd64_wr64_same]
  · simp only [magic_of]
    rw [rdN_wrN_same]

theorem my_malloc_of_find (cfg : Cfg) (fuel size : Nat) (s s1 : Heap) (a prev : Nat)
    (hfind : find_free cfg fuel size 0 0 s = (.ok (a, prev), s1)) (ha : a ≠ 0) :
    ∃ s2, my_malloc cfg fuel size s = .ok ((a + sizeof_header_t) % W, s2) ∧
      size_of s2.mem a = size % W ∧
      magic_of cfg s2.mem a = cfg.MAGIC % 256 ^ cfg.magicBytes ∧
      s2.regions = s1.regions := by
  obtain ⟨fb1, s2, hsp, h1, h2, h3⟩ := split_ok cfg size prev a s1 ha
  refine ⟨s2, ?_, h1, h2, h3⟩
  simp only [my_malloc, hfind, ha, if_false, hsp]

theorem my_malloc_of_not_found (cfg : Cfg) (fuel size : Nat) (s s1 : Heap) (prev : Nat)
    (hfind : find_free cfg fuel size 0 0 s = (.ok (0, prev), s1)) :
    my_malloc cfg fuel size s = .ok (0, s1) := by
  simp only [my_malloc, hfind, if_true]

theorem coalesce_loop_ne_assert (m : Mem) (bs : Nat) :
    ∀ (fuel cur : Nat), coalesce_loop m bs fuel cur ≠ .error .assertFailed := by
  intro fuel
  induction fuel with
  | zero => intro cur; simp [coalesce_loop]
  | succ fuel ih =>
    intro cur
    simp only [coalesce_loop]
    split_ifs
    · simp
    · simp
    · exact ih _

theorem coalesce_ne_assert (fuel fb : Nat) (s : Heap) :
    coalesce fuel fb s ≠ .error .assertFailed := by
  have := coalesce_loop_ne_assert s.mem ((size_of s.mem fb + sizeof_node_t) % W) fuel fb
  simp only [coalesce]
  cases h : coalesce_loop s.mem ((size_of s.mem fb + sizeof_node_t) % W) fuel fb with
  | error e =>
    rw [h] at this
    simpa using this
  | ok m => simp

theorem node_to_free_eq (a : Nat) (h : a + sizeof_header_t < W) :
    (a + sizeof_header_t + W - sizeof_header_t) % W = a := by
  rw [show a + sizeof_header_t + W - sizeof_header_t = a + W by omega, Nat.add_mod_right]
  exact Nat.mod_eq_of_lt (by omega)

theorem my_free_of_magic (cfg : Cfg) (fuel a : Nat) (s : Heap)
    (hb : a + sizeof_header_t < W) (hmag : magic_of cfg s.mem a = cfg.MAGIC) :
    my_free cfg fuel (a + sizeof_header_t) s =
      coalesce fuel a
        { head := a, mem := wr64 (wr64 s.mem a (size_of s.mem a)) (a + 8) s.head,
          regions := s.regions } := by
  simp only [my_free, node_to_free_eq a hb, hmag, ne_eq, not_true_eq_false, if_false]

theorem my_free_of_bad_magic (cfg : Cfg) (fuel q : Nat) (s : Heap)
    (hmag : magic_of cfg s.mem ((q + W - sizeof_header_t) % W) ≠ cfg.MAGIC) :
    my_free cfg fuel q s = .error .assertFailed := by
  simp only [my_free, hmag, ne_eq, not_false_eq_true, if_true]

theorem find_free_of_ne (cfg : Cfg) (fuel size f0 p0 : Nat) (s : Heap) (h : s.head ≠ 0) :
    find_free cfg fuel size f0 p0 s
      = (find_free_loop s.mem ((sizeof_header_t + size) % W) fuel s.head 0 f0 p0, s) := by
  simp only [find_free, heap_of_ne cfg s h]

theorem Sep.symm {a b : Nat} (h : Sep a b) : Sep b a := Or.symm h

theorem size_of_wr64_size_sep (m : Mem) (x y v : Nat) (h : Sep x y) :
    size_of (wr64 m x v) y = size_of m y := by
  unfold Sep at h; unfold size_of; exact rd64_wr64_disj _ _ _ _ (by omega)

theorem next_of_wr64_size_sep (m : Mem) (x y v : Nat) (h : Sep x y) :
    next_of (wr64 m x v) y = next_of m y := by
  unfold Sep at h; unfold next_of; exact rd64_wr64_disj _ _ _ _ (by omega)

theorem size_of_wr64_next_sep (m : Mem) (x y v : Nat) (h : Sep x y) :
    size_of (wr64 m (x + 8) v) y = size_of m y := by
  unfold Sep at h; unfold size_of; exact rd64_wr64_disj _ _ _ _ (by omega)

theorem next_of_wr64_next_sep (m : Mem) (x y v : Nat) (h : Sep x y) :
    next_of (wr64 m (x + 8) v) y = next_of m y := by
  unfold Sep at h; unfold next_of; exact rd64_wr64_disj _ _ _ _ (by omega)

theorem next_of_wr64_size_self (m : Mem) (x v : Nat) :
    next_of (wr64 m x v) x = next_of m x := by
  unfold next_of; exact rd64_wr64_disj _ _ _ _ (by omega)

theorem size_of_wr64_next_self (m : Mem) (x v : Nat) :
    size_of (wr64 m (x + 8) v) x = size_of m x := by
  unfold size_of; exact rd64_wr64_disj _ _ _ _ (by omega)

theorem size_of_wr64_self (m : Mem) (x v : Nat) : size_of (wr64 m x v) x = v % W := by
  unfold size_of; exact rd64_wr64_same _ _ _

theorem next_of_wr64_self (m : Mem) (x v : Nat) : next_of (wr64 m (x + 8) v) x = v % W := by
  unfold next_of; exact rd64_wr64_same _ _ _

theorem size_of_lt (m : Mem) (x : Nat) : size_of m x < W := rd64_lt m x

theorem next_of_lt (m : Mem) (x : Nat) : next_of m x < W := rd64_lt m (x + 8)

theorem size_of_mergeNodes_self (m : Mem) (x y : Nat) :
    size_of (mergeNodes m x y) x = (size_of m x + (size_of m y + sizeof_node_t) % W) % W := by
  unfold mergeNodes
  rw [size_of_wr64_next_self, size_of_wr64_self, Nat.mod_mod]

theorem next_of_mergeNodes_self (m : Mem) (x y : Nat) :
    next_of (mergeNodes m x y) x = next_of m y := by
  unfold mergeNodes
  rw [next_of_wr64_self, Nat.mod_eq_of_lt (next_of_lt m y)]

theorem size_of_mergeNodes_sep (m : Mem) (x y z : Nat) (h : Sep x z) :
    size_of (mergeNodes m x y) z = size_of m z := by
  unfold mergeNodes
  rw [size_of_wr64_next_sep _ _ _ _ h, size_of_wr64_size_sep _ _ _ _ h]

theorem next_of_mergeNodes_sep (m : Mem) (x y z : Nat) (h : Sep x z) :
    next_of (mergeNodes m x y) z = next_of m z := by
  unfold mergeNodes
  rw [next_of_wr64_next_sep _ _ _ _ h, next_of_wr64_size_sep _ _ _ _ h]

theorem mergeNodes_out (m : Mem) (x y a : Nat) (h : a < x ∨ x + 16 ≤ a) :
    mergeNodes m x y a = m a := by
  unfold mergeNodes wr64
  rw [wrN_out _ _ _ _ _ (by omega), wrN_out _ _ _ _ _ (by omega)]

theorem IsList_congr (m m1 : Mem) (l : List Nat) :
    ∀ p, (∀ x ∈ l, next_of m1 x = next_of m x) → IsList m p l → IsList m1 p l := by
  induction l with
  | nil => intro p _ h; exact h
  | cons a l ih =>
    intro p hn h
    obtain ⟨h1, h2, h3⟩ := h
    refine ⟨h1, h2, ?_⟩
    rw [hn a (List.mem_cons_self _ _)]
    exact ih _ (fun x hx => hn x (List.mem_cons_of_mem _ hx)) h3

theorem IsList_head (m : Mem) (p a : Nat) (l : List Nat) (h : IsList m p (a :: l)) : p = a :=
  h.1

theorem IsList_mergeNodes (m : Mem) (x y : Nat) (post : List Nat) (pre : List Nat) :
    ∀ p, IsList m p (pre ++ x :: y :: post) → (pre ++ x :: y :: post).Pairwise Sep →
      IsList (mergeNodes m x y) p (pre ++ x :: post) := by
  induction pre with
  | nil =>
    intro p h hs
    obtain ⟨h1, h2, h3, h4, h5⟩ := h
    refine ⟨h1, h2, ?_⟩
    rw [next_of_mergeNodes_self]
    apply IsList_congr m _ post _ _ h5
    intro z hz
    apply next_of_mergeNodes_sep
    have := List.rel_of_pairwise_cons hs (List.mem_cons_of_mem _ hz)
    exact this
  | cons z pre ih =>
    intro p h hs
    obtain ⟨h1, h2, h3⟩ := h
    have hzx : Sep z x := List.rel_of_pairwise_cons hs (by simp)
    refine ⟨h1, h2, ?_⟩
    rw [next_of_mergeNodes_sep _ _ _ _ hzx.symm]
    exact ih _ h3 (List.Pairwise.of_cons hs)

theorem coalesce_loop_spec (m : Mem) (bs : Nat) (rest : List Nat) :
    ∀ (fuel cur : Nat), IsList m cur (cur :: rest) → (cur :: rest).Pairwise Sep →
      rest.length < fuel →
      (NoAdj bs (cur :: rest) ∧ coalesce_loop m bs fuel cur = .ok m) ∨
      (∃ pre x y post, cur :: rest = pre ++ x :: y :: post ∧ NoAdj bs (pre ++ [x]) ∧
        (x + bs) % W = y ∧ coalesce_loop m bs fuel cur = .ok (mergeNodes m x y)) := by
  induction rest with
  | nil =>
    intro fuel cur hl _ hf
    obtain ⟨f, rfl⟩ : ∃ f, fuel = f + 1 := ⟨fuel - 1, by simp at hf; omega⟩
    obtain ⟨-, -, h3⟩ := hl
    have h3 : next_of m cur = 0 := h3
    left
    exact ⟨List.chain'_singleton _, by simp [coalesce_loop, h3]⟩
  | cons nxt rest ih =>
    intro fuel cur hl hs hf
    obtain ⟨f, rfl⟩ : ∃ f, fuel = f + 1 := ⟨fuel - 1, by simp at hf; omega⟩
    obtain ⟨-, hc0, h3⟩ := hl
    have hn : next_of m cur = nxt := h3.1
    have hn0 : nxt ≠ 0 := h3.2.1
    have hsep : Sep cur nxt := List.rel_of_pairwise_cons hs (List.mem_cons_self _ _)
    by_cases hadj : (cur + bs) % W = nxt
    · right
      refine ⟨[], cur, nxt, rest, rfl, List.chain'_singleton _, hadj, ?_⟩
      simp only [coalesce_loop, hn, hn0, hadj, if_false, if_true]
      rw [next_of_wr64_size_self, hn, next_of_wr64_size_sep _ _ _ _ hsep]
      rfl
    · have hl1 : IsList m nxt (nxt :: rest) := ⟨rfl, hn0, h3.2.2⟩
      have step : coalesce_loop m bs (f + 1) cur = coalesce_loop m bs f nxt := by
        simp only [coalesce_loop, hn, hn0, hadj, if_false]
      rcases ih f nxt hl1 (List.Pairwise.of_cons hs) (by simp at hf; omega) with
        ⟨h1, h2⟩ | ⟨pre, x, y, post, h1, h2, h3, h4⟩
      · left
        exact ⟨List.Chain'.cons hadj h1, by rw [step, h2]⟩
      · right
        refine ⟨cur :: pre, x, y, post, by rw [h1]; rfl, ?_, h3, by rw [step, h4]⟩
        cases pre with
        | nil =>
          simp only [List.nil_append, List.cons.injEq] at h1
          rw [← h1.1]
          exact List.Chain'.cons hadj (List.chain'_singleton _)
        | cons z pre =>
          simp only [List.cons_append, List.cons.injEq] at h1
          rw [← h1.1]
          rw [← h1.1] at h2
          exact List.Chain'.cons hadj h2


theorem IsList_head_lt (m : Mem) (p : Nat) (l : List Nat) (h : IsList m p l)
    (hb : ∀ x ∈ l, x < W) : p < W := by
  cases l with
  | nil => have : p = 0 := h; rw [this, W_val]; norm_num
  | cons a l => rw [h.1]; exact hb a (List.mem_cons_self _ _)

/-- State of `my_free` just before `coalesce`: the block is pushed on the list. -/
theorem push_isList (m : Mem) (a head : Nat) (l : List Nat) (ha : a ≠ 0)
    (hl : IsList m head l) (hsep : (a :: l).Pairwise Sep) (hb : ∀ x ∈ l, x < W) :
    IsList (wr64 (wr64 m a (size_of m a)) (a + 8) head) a (a :: l) ∧
    size_of (wr64 (wr64 m a (size_of m a)) (a + 8) head) a = size_of m a ∧
    ∀ z ∈ l, size_of (wr64 (wr64 m a (size_of m a)) (a + 8) head) z = size_of m z := by
  have hh : head < W := IsList_head_lt m head l hl hb
  have hz : ∀ z ∈ l, Sep a z := fun z hz => List.rel_of_pairwise_cons hsep hz
  refine ⟨⟨rfl, ha, ?_⟩, ?_, ?_⟩
  · rw [next_of_wr64_self, Nat.mod_eq_of_lt hh]
    apply IsList_congr m _ l _ _ hl
    intro z hzl
    rw [next_of_wr64_next_sep _ _ _ _ (hz z hzl), next_of_wr64_size_sep _ _ _ _ (hz z hzl)]
  · rw [size_of_wr64_next_self, size_of_wr64_self, Nat.mod_eq_of_lt (size_of_lt m a)]
  · intro z hzl
    rw [size_of_wr64_next_sep _ _ _ _ (hz z hzl), size_of_wr64_size_sep _ _ _ _ (hz z hzl)]

/-! ## Step lemmas for `my_malloc` and `my_free` -/

theorem rdN_trunc (m : Mem) : ∀ (k n a : Nat), k ≤ n → rdN m a k = rdN m a n % 256 ^ k := by
  intro k
  induction k with
  | zero => intro n a _; simp [rdN, Nat.mod_one]
  | succ k ih =>
    intro n a h
    obtain ⟨n1, rfl⟩ : ∃ n1, n = n1 + 1 := ⟨n - 1, by omega⟩
    have hb : m a % 256 < 256 := Nat.mod_lt _ (by norm_num)
    rw [rdN, rdN, ih n1 (a + 1) (by omega), pow_succ, Nat.mul_comm (256 ^ k) 256, Nat.mod_mul]
    have e1 : (m a % 256 + 256 * rdN m (a + 1) n1) % 256 = m a % 256 := by omega
    have e2 : (m a % 256 + 256 * rdN m (a + 1) n1) / 256 = rdN m (a + 1) n1 := by omega
    rw [e1, e2]

theorem magic_of_eq_next (cfg : Cfg) (m : Mem) (a : Nat) (h : cfg.magicBytes ≤ 8) :
    magic_of cfg m a = next_of m a % 256 ^ cfg.magicBytes :=
  rdN_trunc m cfg.magicBytes 8 (a + 8) h

theorem rd64_congr (m1 m2 : Mem) (a : Nat) (h : ∀ x, a ≤ x → x < a + 8 → m1 x = m2 x) :
    rd64 m1 a = rd64 m2 a :=
  rdN_congr m1 m2 a 8 (fun i hi => h (a + i) (by omega) (by omega))

theorem charToSize_zero (cfg : Cfg) : charToSize cfg 0 = 0 := by
  simp [charToSize]

theorem my_malloc_heap (cfg : Cfg) (fuel size : Nat) (s : Heap) (h : (heap cfg s).head ≠ 0) :
    my_malloc cfg fuel size s = my_malloc cfg fuel size (heap cfg s) := by
  simp only [my_malloc, find_free, heap_of_ne cfg (heap cfg s) h]

/-- Allocation from a head node that fits, when the node's payload area is all zero. -/
theorem my_malloc_head_zero (cfg : Cfg) (fuel size h z : Nat) (s : Heap)
    (hm : cfg.MagicOK) (hf : 1 ≤ fuel)
    (hh : s.head = h) (h0 : h ≠ 0) (hW : h + 16 + z < W)
    (hz : size_of s.mem h = z) (hfit : 16 + size ≤ z)
    (hzero : ∀ x, h + 16 ≤ x → x < h + 16 + z → s.mem x = 0) :
    ∃ s2, my_malloc cfg fuel size s = .ok (h + 16, s2) ∧
      s2.head = h + 16 + size ∧ s2.regions = s.regions ∧
      size_of s2.mem (h + 16 + size) = z - 16 - size ∧
      next_of s2.mem (h + 16 + size) = 0 ∧
      size_of s2.mem h = size ∧ magic_of cfg s2.mem h = cfg.MAGIC ∧
      (∀ x, h + 32 + size ≤ x → x < h + 16 + z → s2.mem x = 0) ∧
      (∀ x, (x < h ∨ h + 16 + z ≤ x) → s2.mem x = s.mem x) := by
  obtain ⟨f, rfl⟩ : ∃ f, fuel = f + 1 := ⟨fuel - 1, by omega⟩
  obtain ⟨hm1, hm2, hm3⟩ := hm
  have hWv := W_val
  have hsp : (sizeof_header_t + size) % W = 16 + size := by
    simp only [sizeof_header_t]; exact Nat.mod_eq_of_lt (by omega)
  have hfind : find_free cfg (f + 1) size 0 0 s = (.ok (h, 0), s) := by
    rw [find_free_of_ne cfg _ _ _ _ s (by rw [hh]; exact h0), hsp]
    simp [find_free_loop, hh, h0, hz, hfit]
  have hact : (size + sizeof_header_t) % W = size + 16 := by
    simp only [sizeof_header_t]; exact Nat.mod_eq_of_lt (by omega)
  have hnh : (h + (size + 16)) % W = h + 16 + size := by
    rw [Nat.mod_eq_of_lt (by omega)]; omega
  have hbyte : rd8 s.mem (h + 16 + size) = 0 := by
    unfold rd8; rw [hzero _ (by omega) (by omega)]
  have hnew : (z + W - (size + 16)) % W = z - 16 - size := by
    rw [show z + W - (size + 16) = (z - 16 - size) + W by omega, Nat.add_mod_right]
    exact Nat.mod_eq_of_lt (by omega)
  have hret : (h + sizeof_header_t) % W = h + 16 := by
    simp only [sizeof_header_t]; exact Nat.mod_eq_of_lt (by omega)
  refine ⟨{ head := h + 16 + size,
             mem := wrN (wr64 (wr64 s.mem (h + 16 + size) (z - 16 - size)) h size) (h + 8)
               cfg.magicBytes cfg.MAGIC,
             regions := s.regions }, ?_, ?_⟩
  · simp only [my_malloc, hfind, h0, if_false, split, hact, hnh, hbyte, charToSize_zero,
      Nat.zero_le, decide_True, if_true, hz, hnew, hret]
  · refine ⟨rfl, rfl, ?_, ?_, ?_, ?_, ?_, ?_⟩
    · simp only [size_of]
      rw [rd64_wrN_disj _ _ _ _ _ (by omega), rd64_wr64_disj _ _ _ _ (by omega),
        rd64_wr64_same, Nat.mod_eq_of_lt (by omega)]
    · simp only [next_of]
      rw [rd64_wrN_disj _ _ _ _ _ (by omega), rd64_wr64_disj _ _ _ _ (by omega),
        rd64_wr64_disj _ _ _ _ (by omega)]
      apply rdN_zero
      intro i hi
      exact hzero _ (by omega) (by omega)
    · simp only [size_of]
      rw [rd64_wrN_disj _ _ _ _ _ (by omega), rd64_wr64_same, Nat.mod_eq_of_lt (by omega)]
    · simp only [magic_of]
      rw [rdN_wrN_same, Nat.mod_eq_of_lt hm3]
    · intro x hx1 hx2
      show wrN (wr64 (wr64 s.mem (h + 16 + size) (z - 16 - size)) h size) (h + 8)
        cfg.magicBytes cfg.MAGIC x = 0
      unfold wr64
      rw [wrN_out _ _ _ _ _ (by omega), wrN_out _ _ _ _ _ (by omega),
        wrN_out _ _ _ _ _ (by omega)]
      exact hzero x (by omega) hx2
    · intro x hx
      show wrN (wr64 (wr64 s.mem (h + 16 + size) (z - 16 - size)) h size) (h + 8)
        cfg.magicBytes cfg.MAGIC x = s.mem x
      unfold wr64
      rw [wrN_out _ _ _ _ _ (by omega), wrN_out _ _ _ _ _ (by omega),
        wrN_out _ _ _ _ _ (by omega)]

/-- Release of a block whose physical successor is the current head. -/
theorem my_free_adjacent_head (cfg : Cfg) (fuel a : Nat) (s : Heap)
    (hf : 1 ≤ fuel) (hb : a + sizeof_header_t < W)
    (hmag : magic_of cfg s.mem a = cfg.MAGIC)
    (hh0 : s.head ≠ 0) (hhW : s.head < W)
    (hadj : a + 16 + size_of s.mem a = s.head)
    (hov : size_of s.mem a + size_of s.mem s.head + 16 < W) :
    ∃ s2, my_free cfg fuel (a + sizeof_header_t) s = .ok s2 ∧
      s2.head = a ∧ s2.regions = s.regions ∧
      size_of s2.mem a = size_of s.mem a + size_of s.mem s.head + 16 ∧
      next_of s2.mem a = next_of s.mem s.head ∧
      (∀ x, (x < a ∨ a + 16 ≤ x) → s2.mem x = s.mem x) := by
  obtain ⟨f, rfl⟩ : ∃ f, fuel = f + 1 := ⟨fuel - 1, by omega⟩
  have hsep : Sep a s.head := Or.inl (by omega)
  have h1 : size_of (wr64 (wr64 s.mem a (size_of s.mem a)) (a + 8) s.head) a = size_of s.mem a := by
    rw [size_of_wr64_next_self, size_of_wr64_self, Nat.mod_eq_of_lt (size_of_lt _ _)]
  have h2 : next_of (wr64 (wr64 s.mem a (size_of s.mem a)) (a + 8) s.head) a = s.head := by
    rw [next_of_wr64_self, Nat.mod_eq_of_lt hhW]
  have h3 : size_of (wr64 (wr64 s.mem a (size_of s.mem a)) (a + 8) s.head) s.head
      = size_of s.mem s.head := by
    rw [size_of_wr64_next_sep _ _ _ _ hsep, size_of_wr64_size_sep _ _ _ _ hsep]
  have h4 : next_of (wr64 (wr64 s.mem a (size_of s.mem a)) (a + 8) s.head) s.head
      = next_of s.mem s.head := by
    rw [next_of_wr64_next_sep _ _ _ _ hsep, next_of_wr64_size_sep _ _ _ _ hsep]
  have hbs : (a + (size_of s.mem a + sizeof_node_t) % W) % W = s.head := by
    have e1 : (size_of s.mem a + sizeof_node_t) % W = size_of s.mem a + 16 := by
      simp only [sizeof_node_t]; exact Nat.mod_eq_of_lt (by omega)
    rw [e1, Nat.mod_eq_of_lt (by omega)]; omega
  have hstep : coalesce_loop (wr64 (wr64 s.mem a (size_of s.mem a)) (a + 8) s.head)
      ((size_of s.mem a + sizeof_node_t) % W) (f + 1) a
      = .ok (mergeNodes (wr64 (wr64 s.mem a (size_of s.mem a)) (a + 8) s.head) a s.head) := by
    simp only [coalesce_loop, h2, hh0, hbs, if_false, if_true]
    rw [next_of_wr64_size_self, h2, next_of_wr64_size_sep _ _ _ _ hsep]
    rfl
  rw [my_free_of_magic cfg _ a s hb hmag]
  simp only [coalesce, h1, hstep]
  refine ⟨_, rfl, rfl, rfl, ?_, ?_, ?_⟩
  · show size_of (mergeNodes _ a s.head) a = _
    rw [size_of_mergeNodes_self, h1, h3]
    have e1 : (size_of s.mem s.head + sizeof_node_t) % W = size_of s.mem s.head + 16 := by
      simp only [sizeof_node_t]; exact Nat.mod_eq_of_lt (by omega)
    rw [e1, Nat.mod_eq_of_lt (by omega)]; omega
  · show next_of (mergeNodes _ a s.head) a = _
    rw [next_of_mergeNodes_self, h4]
  · intro x hx
    show mergeNodes _ a s.head x = _
    rw [mergeNodes_out _ _ _ _ hx]
    unfold wr64
    rw [wrN_out _ _ _ _ _ (by omega), wrN_out _ _ _ _ _ (by omega)]


/-- Effect of `my_free` on a well-formed free list `l` when the released header
at `a` is disjoint from every node header: the block becomes the head, the old
nodes follow in order with at most one unlinked, and the head's size is the
recorded size unless the head itself absorbed its list successor. -/
theorem my_free_spec (cfg : Cfg) (fuel a : Nat) (s : Heap) (l : List Nat)
    (ha : a ≠ 0) (hb : a + sizeof_header_t < W)
    (hmag : magic_of cfg s.mem a = cfg.MAGIC)
    (hl : IsList s.mem s.head l)
    (hsep : (a :: l).Pairwise Sep)
    (hbnd : ∀ x ∈ l, x < W)
    (hf : l.length + 1 ≤ fuel) :
    ∃ s2 l1, my_free cfg fuel (a + sizeof_header_t) s = .ok s2 ∧
      s2.head = a ∧ s2.regions = s.regions ∧
      IsList s2.mem s2.head (a :: l1) ∧
      l1.Sublist l ∧ l.length ≤ l1.length + 1 ∧
      (l1 = l → size_of s2.mem a = size_of s.mem a) ∧
      (size_of s2.mem a = size_of s.mem a ∨
        ∃ y ∈ l, size_of s2.mem a
          = (size_of s.mem a + (size_of s.mem y + sizeof_node_t) % W) % W) := by
  obtain ⟨hpl, hps, hpz⟩ := push_isList s.mem a s.head l ha hl hsep hbnd
  rw [my_free_of_magic cfg fuel a s hb hmag]
  simp only [coalesce]
  rcases coalesce_loop_spec _
      ((size_of (wr64 (wr64 s.mem a (size_of s.mem a)) (a + 8) s.head) a + sizeof_node_t) % W)
      l fuel a hpl hsep (by omega) with ⟨-, h2⟩ | ⟨pre, x, y, post, h1, -, -, h4⟩
  · rw [h2]
    exact ⟨_, l, rfl, rfl, rfl, hpl, List.Sublist.refl l, by omega, fun _ => hps, Or.inl hps⟩
  · rw [h4]
    have hm := IsList_mergeNodes _ x y post pre a (h1 ▸ hpl) (h1 ▸ hsep)
    cases pre with
    | nil =>
      simp only [List.nil_append, List.cons.injEq] at h1
      obtain ⟨rfl, rfl⟩ := h1
      have hy : y ∈ y :: post := List.mem_cons_self _ _
      have hsz : size_of (mergeNodes (wr64 (wr64 s.mem a (size_of s.mem a)) (a + 8) s.head) a y) a
          = (size_of s.mem a + (size_of s.mem y + sizeof_node_t) % W) % W := by
        rw [size_of_mergeNodes_self, hps, hpz y hy]
      refine ⟨_, post, rfl, rfl, rfl, hm, List.sublist_cons_self y post, by simp, ?_,
        Or.inr ⟨y, hy, hsz⟩⟩
      intro h
      have := congrArg List.length h
      simp at this
    | cons z pre =>
      simp only [List.cons_append, List.cons.injEq] at h1
      obtain ⟨rfl, rfl⟩ := h1
      have hx : x ∈ pre ++ x :: y :: post := by simp
      have hsx : Sep x a := (List.rel_of_pairwise_cons hsep hx).symm
      have hsz : size_of (mergeNodes (wr64 (wr64 s.mem a (size_of s.mem a)) (a + 8) s.head) x y) a
          = size_of s.mem a := by
        rw [size_of_mergeNodes_sep _ _ _ _ hsx, hps]
      refine ⟨_, pre ++ x :: post, rfl, rfl, rfl, hm, ?_, by simp; omega, fun _ => hsz,
        Or.inl hsz⟩
      exact List.Sublist.append (List.Sublist.refl pre)
        (List.Sublist.cons₂ x (List.sublist_cons_self y post))

theorem number_of_free_nodes_loop_spec (m : Mem) (l : List Nat) :
    ∀ (fuel p c : Nat), IsList m p l → l.length < fuel →
      number_of_free_nodes_loop m fuel p c = .ok (c + l.length) := by
  induction l with
  | nil =>
    intro fuel p c hl hf
    obtain ⟨f, rfl⟩ : ∃ f, fuel = f + 1 := ⟨fuel - 1, by simp at hf; omega⟩
    have hp : p = 0 := hl
    simp [number_of_free_nodes_loop, hp]
  | cons a l ih =>
    intro fuel p c hl hf
    obtain ⟨f, rfl⟩ : ∃ f, fuel = f + 1 := ⟨fuel - 1, by simp at hf; omega⟩
    obtain ⟨rfl, h0, h3⟩ := hl
    simp only [number_of_free_nodes_loop, h0, if_false]
    rw [ih f _ _ h3 (by simp at hf; omega)]
    simp only [List.length_cons]
    congr 1; omega

theorem number_of_free_nodes_of_list (cfg : Cfg) (fuel : Nat) (s : Heap) (l : List Nat)
    (h0 : s.head ≠ 0) (hl : IsList s.mem s.head l) (hf : l.length < fuel) :
    number_of_free_nodes cfg fuel s = (.ok l.length, s) := by
  simp only [number_of_free_nodes, heap_of_ne cfg s h0]
  rw [number_of_free_nodes_loop_spec s.mem l fuel _ 0 hl hf, Nat.zero_add]

theorem heap_zero (cfg : Cfg) (s : Heap) (h0 : s.head = 0) (x : Nat)
    (h1 : cfg.mmap s.regions + 16 ≤ x) (h2 : x < cfg.mmap s.regions + cfg.HEAP_SIZE) :
    (heap cfg s).mem x = 0 := by
  simp only [heap, h0, if_true]
  unfold wr64
  rw [wrN_out _ _ _ _ _ (by omega), wrN_out _ _ _ _ _ (by omega)]
  exact zfill_in _ _ _ _ (by omega) h2

theorem IsList_ne_zero (m : Mem) (l : List Nat) :
    ∀ p, IsList m p l → ∀ a ∈ l, a ≠ 0 := by
  induction l with
  | nil => intro p _ a ha; simp at ha
  | cons x l ih =>
    intro p h a ha
    rcases List.mem_cons.mp ha with rfl | ha
    · exact h.2.1
    · exact ih _ h.2.2 a ha

theorem size_of_congr (m1 m2 : Mem) (a : Nat) (h : ∀ x, a ≤ x → x < a + 16 → m1 x = m2 x) :
    size_of m1 a = size_of m2 a :=
  rd64_congr m1 m2 a (fun x h1 h2 => h x h1 (by omega))

theorem next_of_congr (m1 m2 : Mem) (a : Nat) (h : ∀ x, a ≤ x → x < a + 16 → m1 x = m2 x) :
    next_of m1 a = next_of m2 a :=
  rd64_congr m1 m2 (a + 8) (fun x h1 h2 => h x (by omega) (by omega))

theorem magic_of_congr (cfg : Cfg) (m1 m2 : Mem) (a : Nat) (hm : cfg.magicBytes ≤ 8)
    (h : ∀ x, a ≤ x → x < a + 16 → m1 x = m2 x) :
    magic_of cfg m1 a = magic_of cfg m2 a :=
  rdN_congr m1 m2 (a + 8) cfg.magicBytes (fun i hi => h (a + 8 + i) (by omega) (by omega))

/-- The state after the first `heap()`, described for the step lemmas. -/
theorem heap_fresh_block (cfg : Cfg) (s0 : Heap) (h0 : s0.head = 0)
    (hr : cfg.RegionOK s0.regions) (hH : 16 ≤ cfg.HEAP_SIZE) :
    (heap cfg s0).head = cfg.mmap s0.regions ∧
    (heap cfg s0).head ≠ 0 ∧
    size_of (heap cfg s0).mem (cfg.mmap s0.regions) = cfg.HEAP_SIZE - 16 ∧
    (∀ x, cfg.mmap s0.regions + 16 ≤ x →
      x < cfg.mmap s0.regions + 16 + (cfg.HEAP_SIZE - 16) → (heap cfg s0).mem x = 0) ∧
    IsList (heap cfg s0).mem (heap cfg s0).head [cfg.mmap s0.regions] := by
  have hz : cfg.SizeOK := ⟨hH, by have := hr.2; omega⟩
  obtain ⟨hh, -, hsz, hnx⟩ := heap_fresh cfg s0 h0 hz
  refine ⟨hh, by rw [hh]; exact hr.1, hsz, ?_, ⟨hh, hr.1, hnx⟩⟩
  intro x h1 h2
  exact heap_zero cfg s0 h0 x h1 (by omega)

theorem number_of_free_nodes_heap (cfg : Cfg) (fuel : Nat) (s : Heap)
    (h : (heap cfg s).head ≠ 0) :
    number_of_free_nodes cfg fuel s = number_of_free_nodes cfg fuel (heap cfg s) := by
  simp only [number_of_free_nodes, heap_of_ne cfg (heap cfg s) h]

/-! ## Counting, summing and allocation-only runs -/

theorem coalesce_loop_adjacent (m : Mem) (bs f n y : Nat)
    (hn : next_of m n = y) (hy : y ≠ 0) (hadj : (n + bs) % W = y) (hsep : Sep n y) :
    coalesce_loop m bs (f + 1) n = .ok (mergeNodes m n y) := by
  simp only [coalesce_loop, hn, hy, hadj, if_false, if_true]
  rw [next_of_wr64_size_self, hn, next_of_wr64_size_sep _ _ _ _ hsep]
  rfl

theorem IsList_suffix (m : Mem) (pfx : List Nat) (n : Nat) (rest : List Nat) :
    ∀ p, IsList m p (pfx ++ n :: rest) → IsList m n (n :: rest) := by
  induction pfx with
  | nil => intro p h; exact ⟨rfl, h.2.1, h.2.2⟩
  | cons z pfx ih => intro p h; exact ih _ h.2.2

theorem footprint_cons (sz : Nat) (rest : List Nat) :
    footprint (sz :: rest) = sizeof_header_t + sz + footprint rest := by
  simp [footprint]

theorem footprint_take_le (sizes : List Nat) : ∀ i, footprint (sizes.take i) ≤ footprint sizes := by
  induction sizes with
  | nil => intro i; simp [footprint]
  | cons sz rest ih =>
    intro i
    cases i with
    | zero => simp [footprint]
    | succ i =>
      rw [List.take_succ_cons, footprint_cons, footprint_cons]
      have := ih i
      omega

theorem offsets_get (sizes : List Nat) :
    ∀ (b i : Nat), i < sizes.length →
      (offsets b sizes)[i]? = some (b + footprint (sizes.take i) + sizeof_header_t) := by
  induction sizes with
  | nil => intro b i h; simp at h
  | cons sz rest ih =>
    intro b i h
    cases i with
    | zero => simp [offsets, footprint]
    | succ i =>
      simp only [offsets, List.getElem?_cons_succ, List.take_succ_cons, footprint_cons]
      rw [ih _ i (by simpa using h)]
      congr 1; omega

theorem offsets_take (sizes : List Nat) :
    ∀ (b i : Nat), offsets b (sizes.take i) = (offsets b sizes).take i := by
  induction sizes with
  | nil => intro b i; simp [offsets]
  | cons sz rest ih =>
    intro b i
    cases i with
    | zero => simp [offsets]
    | succ i => simp only [List.take_succ_cons, offsets, ih]

/-- Allocation-only runs from a state whose head node is followed by zero bytes. -/
theorem run_mallocs (cfg : Cfg) (fuel : Nat) (hm : cfg.MagicOK) (hf : 1 ≤ fuel)
    (sizes : List Nat) :
    ∀ (h z : Nat) (s : Heap) (ps : List Nat),
      s.head = h → h ≠ 0 → h + 16 + z < W → size_of s.mem h = z → next_of s.mem h = 0 →
      (∀ x, h + 16 ≤ x → x < h + 16 + z → s.mem x = 0) →
      footprint sizes ≤ z →
      ∃ s2, run cfg fuel (sizes.map Op.malloc) s ps = .ok (s2, ps ++ offsets h sizes) ∧
        s2.head = h + footprint sizes ∧ s2.regions = s.regions ∧
        size_of s2.mem (h + footprint sizes) = z - footprint sizes ∧
        next_of s2.mem (h + footprint sizes) = 0 := by
  induction sizes with
  | nil =>
    intro h z s ps hh _ _ hz hn _ _
    refine ⟨s, ?_, ?_, rfl, ?_, ?_⟩
    · simp [run, offsets]
    · simpa [footprint] using hh
    · simpa [footprint] using hz
    · simpa [footprint] using hn
  | cons sz rest ih =>
    intro h z s ps hh h0 hW hz _ hzero hfp
    rw [footprint_cons] at hfp
    simp only [sizeof_header_t] at hfp
    obtain ⟨s1, h1, h1h, h1r, h1s, h1n, -, -, h1z, -⟩ :=
      my_malloc_head_zero cfg fuel sz h z s hm hf hh h0 hW hz (by omega) hzero
    obtain ⟨s2, h2, h2h, h2r, h2s, h2n⟩ :=
      ih (h + 16 + sz) (z - 16 - sz) s1 (ps ++ [h + 16]) h1h (by omega) (by omega) h1s h1n
        (fun x hx1 hx2 => h1z x (by omega) (by omega)) (by omega)
    refine ⟨s2, ?_, ?_, by rw [h2r, h1r], ?_, ?_⟩
    · simp only [List.map_cons, run, h1, h2, offsets, sizeof_header_t, List.append_assoc,
        List.singleton_append]
    · rw [h2h, footprint_cons]; simp only [sizeof_header_t]; omega
    · rw [footprint_cons]; simp only [sizeof_header_t]
      rw [show h + (16 + sz + footprint rest) = h + 16 + sz + footprint rest by omega, h2s]
      omega
    · rw [footprint_cons]; simp only [sizeof_header_t]
      rw [show h + (16 + sz + footprint rest) = h + 16 + sz + footprint rest by omega, h2n]

/-! ## Claims -/

/-- C1: on a freshly initialised heap (`heap()` called with `head == NULL`) the
free list is exactly one node at the region base, of size
`HEAP_SIZE - sizeof(node_t)` and without successor; `number_of_free_nodes()`
returns 1 and `available_memory()` returns `HEAP_SIZE - sizeof(node_t)`,
whether they perform the initialisation themselves or run after it. -/
theorem C1_fresh_heap (cfg : Cfg) (s : Heap) (fuel : Nat) (h0 : s.head = 0)
    (hr : cfg.RegionOK s.regions) (hz : cfg.SizeOK) (hf : 2 ≤ fuel) :
    (heap cfg s).head = cfg.mmap s.regions ∧
    IsList (heap cfg s).mem (heap cfg s).head [cfg.mmap s.regions] ∧
    size_of (heap cfg s).mem (cfg.mmap s.regions) = cfg.HEAP_SIZE - sizeof_node_t ∧
    next_of (heap cfg s).mem (cfg.mmap s.regions) = 0 ∧
    number_of_free_nodes cfg fuel s = (.ok 1, heap cfg s) ∧
    number_of_free_nodes cfg fuel (heap cfg s) = (.ok 1, heap cfg s) ∧
    available_memory cfg fuel s = (.ok (cfg.HEAP_SIZE - sizeof_node_t), heap cfg s) ∧
    available_memory cfg fuel (heap cfg s)
      = (.ok (cfg.HEAP_SIZE - sizeof_node_t), heap cfg s) := by
  obtain ⟨hh, -, hsz, hnx⟩ := heap_fresh cfg s h0 hz
  have hb : cfg.mmap s.regions ≠ 0 := hr.1
  have hidem : heap cfg (heap cfg s) = heap cfg s := heap_of_ne cfg _ (by rw [hh]; exact hb)
  obtain ⟨f, rfl⟩ : ∃ f, fuel = f + 2 := ⟨fuel - 2, by omega⟩
  have hlt : cfg.HEAP_SIZE - sizeof_node_t < W := by have := hz.2; omega
  have hcount : number_of_free_nodes_loop (heap cfg s).mem (f + 2) (heap cfg s).head 0
      = .ok 1 := by
    rw [hh]; simp [number_of_free_nodes_loop, hb, hnx]
  have hsum : available_memory_loop (heap cfg s).mem (f + 2) (heap cfg s).head 0
      = .ok (cfg.HEAP_SIZE - sizeof_node_t) := by
    rw [hh]; simp [available_memory_loop, hb, hnx, hsz, Nat.mod_eq_of_lt hlt]
  refine ⟨hh, ?_, hsz, hnx, ?_, ?_, ?_, ?_⟩
  · rw [hh]; exact ⟨rfl, hb, hnx⟩
  · simp only [number_of_free_nodes, hcount]
  · simp only [number_of_free_nodes, hidem, hcount]
  · simp only [available_memory, hsum]
  · simp only [available_memory, hidem, hsum]

/-- Witness for C1 on the page-sized heap. -/
theorem C1_fresh_heap_witness :
    (Heap.initial zeroMem).head = 0 ∧ cfgPage.RegionOK 0 ∧ cfgPage.SizeOK ∧
    number_of_free_nodes cfgPage 2 (Heap.initial zeroMem)
      = (.ok 1, heap cfgPage (Heap.initial zeroMem)) ∧
    available_memory cfgPage 2 (Heap.initial zeroMem)
      = (.ok (4096 - 16), heap cfgPage (Heap.initial zeroMem)) :=
  have h := C1_fresh_heap cfgPage (Heap.initial zeroMem) 2 rfl (by decide) (by decide)
    (by decide)
  ⟨rfl, by decide, by decide, h.2.2.2.2.1, h.2.2.2.2.2.2.1⟩

/-- C2: on an initialised heap (`head != NULL`) whose free list is a finite
chain of nodes below the top of the address space, if `my_malloc(size)` returns
`NULL` then the state after the call is the state before it: same `head`, same
bytes everywhere, same nodes with the same sizes and successors, and hence the
same `available_memory()` and `number_of_free_nodes()`. -/
theorem C2_failure_leaves_state (cfg : Cfg) (fuel size n : Nat) (s s1 : Heap) (l : List Nat)
    (hinit : s.head ≠ 0) (hl : IsList s.mem s.head l)
    (hb : ∀ a ∈ l, a + sizeof_header_t < W)
    (hres : my_malloc cfg fuel size s = .ok (0, s1)) :
    s1 = s ∧ s1.head = s.head ∧ (∀ x, s1.mem x = s.mem x) ∧ IsList s1.mem s1.head l ∧
    (∀ a ∈ l, size_of s1.mem a = size_of s.mem a ∧ next_of s1.mem a = next_of s.mem a) ∧
    available_memory cfg n s1 = available_memory cfg n s ∧
    number_of_free_nodes cfg n s1 = number_of_free_nodes cfg n s := by
  have key : s1 = s := by
    have hff := find_free_of_ne cfg fuel size 0 0 s hinit
    cases hloop : find_free_loop s.mem ((sizeof_header_t + size) % W) fuel s.head 0 0 0 with
    | error e =>
      rw [hloop] at hff
      simp [my_malloc, hff] at hres
    | ok r =>
      obtain ⟨a, pv⟩ := r
      rw [hloop] at hff
      by_cases ha : a = 0
      · subst ha
        rw [my_malloc_of_not_found cfg fuel size s s pv hff] at hres
        simp only [Except.ok.injEq, Prod.mk.injEq, true_and] at hres
        exact hres.symm
      · exfalso
        obtain ⟨s2, h1, -⟩ := my_malloc_of_find cfg fuel size s s a pv hff ha
        rw [h1] at hres
        simp only [Except.ok.injEq, Prod.mk.injEq] at hres
        rcases find_free_loop_ok s.mem _ l fuel s.head 0 0 0 a pv hl hloop with ⟨h, -⟩ | ⟨h, -⟩
        · exact ha h
        · have := hb a h
          rw [Nat.mod_eq_of_lt this] at hres
          simp [sizeof_header_t] at hres
  subst key
  exact ⟨rfl, rfl, fun _ => rfl, hl, fun _ _ => ⟨rfl, rfl⟩, rfl, rfl⟩

/-- Witness for C2: a request of 5000 bytes on the fresh page-sized heap. -/
theorem C2_failure_leaves_state_witness :
    (fresh cfgPage).head ≠ 0 ∧
    IsList (fresh cfgPage).mem (fresh cfgPage).head [0x7f0000000000] ∧
    (∀ a ∈ [0x7f0000000000], a + sizeof_header_t < W) ∧
    my_malloc cfgPage 5 5000 (fresh cfgPage) = .ok (0, fresh cfgPage) ∧
    number_of_free_nodes cfgPage 5 (fresh cfgPage) = (.ok 1, fresh cfgPage) :=
  have h := C2_failure_leaves_state cfgPage 5 5000 5 (fresh cfgPage) (fresh cfgPage)
    [0x7f0000000000] (by decide) (by decide) (by decide) rfl
  ⟨by decide, by decide, by decide, rfl, h.2.2.2.2.2.2.symm.trans rfl⟩

/-- C3, evaluated at the failing input: on the fresh page-sized heap the single
free node has size 4080, the request `2^64 - 16` is larger than it, the sum
`sizeof(header_t) + size` wraps to 0, and `my_malloc` returns the non-`NULL`
pointer `base + 16` (whether plain `char` is signed or not). -/
theorem C3_overflowing_request_succeeds :
    IsList (fresh cfgPage).mem (fresh cfgPage).head [0x7f0000000000] ∧
    (∀ a ∈ [0x7f0000000000], size_of (fresh cfgPage).mem a < 2 ^ 64 - 16) ∧
    (sizeof_header_t + (2 ^ 64 - 16)) % W = 0 ∧
    Except.map Prod.fst (my_malloc cfgPage 5 (2 ^ 64 - 16) (fresh cfgPage))
      = .ok (0x7f0000000000 + 16) ∧
    Except.map Prod.fst (my_malloc cfgPageU 5 (2 ^ 64 - 16) (fresh cfgPageU))
      = .ok (0x7f0000000000 + 16) :=
  ⟨by decide, by decide, by decide, rfl, rfl⟩

/-- Counterexample to C4: after `A = my_malloc(64)`, `my_malloc(64)`,
`my_free(A)` on the fresh page-sized heap the free list holds the nodes of
sizes 64 and 3920, `available_memory()` is 3984 and
`sizeof(header_t) + 3950 <= 3984`, yet `my_malloc(3950)` returns `NULL`. -/
theorem C4_fragmented_heap_counterexample :
    ∃ s ps, run cfgPage 10 [.malloc 64, .malloc 64, .free 0] (fresh cfgPage) [] = .ok (s, ps) ∧
      ps = [0x7f0000000000 + 16, 0x7f0000000000 + 96] ∧
      IsList s.mem s.head [0x7f0000000000, 0x7f0000000000 + 160] ∧
      (available_memory cfgPage 10 s).1 = .ok 3984 ∧
      sizeof_header_t + 3950 ≤ 3984 ∧
      my_malloc cfgPage 10 3950 s = .ok (0, s) :=
  ⟨_, _, rfl, rfl, by decide, rfl, by decide, rfl⟩

/-- C4, amended: on an initialised heap whose free list is a finite chain of
nodes with their blocks inside `[lo, hi)`, if some single free node has size at
least `sizeof(header_t) + size`, then `my_malloc(size)` returns a non-`NULL`
pointer `p = a + sizeof(header_t)` where `a` is the first fitting node of the
list (every node before `a` is smaller than `sizeof(header_t) + size`), and the
payload range `[p, p + size)` lies inside `[lo + sizeof(header_t), hi)`. -/
theorem C4_fit_in_one_node (cfg : Cfg) (fuel size lo hi : Nat) (s : Heap) (l : List Nat)
    (hinit : s.head ≠ 0) (hl : IsList s.mem s.head l)
    (hin : ∀ a ∈ l, lo ≤ a ∧ a + sizeof_node_t + size_of s.mem a ≤ hi) (hhi : hi < W)
    (hfit : ∃ a ∈ l, sizeof_header_t + size ≤ size_of s.mem a)
    (hf : l.length ≤ fuel) :
    ∃ p s2 pre a post, my_malloc cfg fuel size s = .ok (p, s2) ∧ p ≠ 0 ∧
      l = pre ++ a :: post ∧
      (∀ x ∈ pre, size_of s.mem x < sizeof_header_t + size) ∧
      sizeof_header_t + size ≤ size_of s.mem a ∧ p = a + sizeof_header_t ∧
      lo + sizeof_header_t ≤ p ∧ p + size ≤ hi := by
  obtain ⟨a0, ha0, hfit0⟩ := hfit
  have hwv := W_val
  have hsz0 := (hin a0 ha0).2
  simp only [sizeof_node_t, sizeof_header_t] at hsz0 hfit0
  have hsp : (sizeof_header_t + size) % W = 16 + size := by
    simp only [sizeof_header_t]; exact Nat.mod_eq_of_lt (by omega)
  obtain ⟨pre, a, post, e, hsmall, hbig⟩ :=
    exists_first_fit s.mem (16 + size) l ⟨a0, ha0, hfit0⟩
  have hal : a ∈ l := by rw [e]; simp
  have hlen : pre.length < fuel := by
    have := congrArg List.length e
    simp at this; omega
  have hloop := find_free_loop_first s.mem (16 + size) pre a post fuel s.head 0 0 0
    (e ▸ hl) hlen hsmall hbig
  have hff : find_free cfg fuel size 0 0 s
      = (.ok (a, (0 :: pre).getLast (List.cons_ne_nil 0 pre)), s) := by
    rw [find_free_of_ne cfg _ _ _ _ s hinit, hsp, hloop]
  have ha := hin a hal
  simp only [sizeof_node_t] at ha
  have hane : a ≠ 0 := IsList_ne_zero s.mem l s.head hl a hal
  obtain ⟨s2, h1, -⟩ := my_malloc_of_find cfg fuel size s s a _ hff hane
  have hret : (a + sizeof_header_t) % W = a + 16 := by
    simp only [sizeof_header_t]; exact Nat.mod_eq_of_lt (by omega)
  rw [hret] at h1
  refine ⟨a + 16, s2, pre, a, post, h1, by omega, e,
    by simp only [sizeof_header_t]; exact hsmall, by simp only [sizeof_header_t]; exact hbig,
    by simp only [sizeof_header_t], by simp only [sizeof_header_t]; omega, by omega⟩

/-- Witness for the amended C4: a request of 100 bytes on the list of nodes of
sizes 64 and 3920. -/
theorem C4_fit_in_one_node_witness :
    twoNodes.head ≠ 0 ∧
    IsList twoNodes.mem twoNodes.head [0x7f0000000000, 0x7f0000000000 + 160] ∧
    size_of twoNodes.mem 0x7f0000000000 = 64 ∧
    size_of twoNodes.mem (0x7f0000000000 + 160) = 3920 ∧
    ∃ p s2 pre a post, my_malloc cfgPage 5 100 twoNodes = .ok (p, s2) ∧ p ≠ 0 ∧
      [0x7f0000000000, 0x7f0000000000 + 160] = pre ++ a :: post ∧
      (∀ x ∈ pre, size_of twoNodes.mem x < sizeof_header_t + 100) ∧
      sizeof_header_t + 100 ≤ size_of twoNodes.mem a ∧ p = a + sizeof_header_t ∧
      0x7f0000000000 + sizeof_header_t ≤ p ∧ p + 100 ≤ 0x7f0000000000 + 4096 :=
  ⟨by decide, by decide, by decide, by decide,
   C4_fit_in_one_node cfgPage 5 100 0x7f0000000000 (0x7f0000000000 + 4096) twoNodes
     [0x7f0000000000, 0x7f0000000000 + 160] (by decide) (by decide) (by decide) (by decide)
     ⟨0x7f0000000000 + 160, by decide, by decide⟩ (by decide)⟩

/-- C5, evaluated at the failing input: after `A = my_malloc(64)`,
`my_malloc(64)`, `my_free(A)` the free list is `[base, base + 160]` (sizes 64
and 3920, two nodes, 3984 bytes).  `my_malloc(8)` selects the node at `base`,
whose successor is `base + 160`; afterwards the list is the single node
`base + 24` of size 40 whose successor is `NULL`: the old successor is lost,
the node count drops from 2 to 1 and the free bytes from 3984 to 40. -/
theorem C5_split_drops_successor :
    ∃ s ps, run cfgPage 10 [.malloc 64, .malloc 64, .free 0] (fresh cfgPage) [] = .ok (s, ps) ∧
      IsList s.mem s.head [0x7f0000000000, 0x7f0000000000 + 160] ∧
      size_of s.mem 0x7f0000000000 = 64 ∧
      (number_of_free_nodes cfgPage 10 s).1 = .ok 2 ∧
      (available_memory cfgPage 10 s).1 = .ok 3984 ∧
      ∃ s1, my_malloc cfgPage 10 8 s = .ok (0x7f0000000000 + 16, s1) ∧
        IsList s1.mem s1.head [0x7f0000000000 + 24] ∧
        size_of s1.mem (0x7f0000000000 + 24) = 40 ∧
        next_of s1.mem (0x7f0000000000 + 24) = 0 ∧
        (number_of_free_nodes cfgPage 10 s1).1 = .ok 1 ∧
        (available_memory cfgPage 10 s1).1 = .ok 40 :=
  ⟨_, _, rfl, by decide, by decide, rfl, rfl, _, rfl, by decide, by decide, by decide, rfl, rfl⟩

/-- C6: whenever `find_free` selects the node at address `a` (not `NULL`, below
the top of the address space) for a request of `size` bytes, `my_malloc(size)`
returns exactly `a + sizeof(header_t)`, the header at `a` then holds
`size == size` and `magic == MAGIC`, and an immediately following `my_free` of
the returned pointer does not fail the magic assertion. -/
theorem C6_header_written (cfg : Cfg) (fuel size a prev : Nat) (s s1 : Heap)
    (hm : cfg.MagicOK) (hs : size < W)
    (hfind : find_free cfg fuel size 0 0 s = (.ok (a, prev), s1))
    (ha : a ≠ 0) (hb : a + sizeof_header_t < W) :
    ∃ s2, my_malloc cfg fuel size s = .ok (a + sizeof_header_t, s2) ∧
      size_of s2.mem a = size ∧
      magic_of cfg s2.mem a = cfg.MAGIC ∧
      ∀ fuel1, my_free cfg fuel1 (a + sizeof_header_t) s2 ≠ .error .assertFailed := by
  obtain ⟨s2, h1, h2, h3, -⟩ := my_malloc_of_find cfg fuel size s s1 a prev hfind ha
  rw [Nat.mod_eq_of_lt hb] at h1
  rw [Nat.mod_eq_of_lt hs] at h2
  rw [Nat.mod_eq_of_lt hm.2.2] at h3
  refine ⟨s2, h1, h2, h3, ?_⟩
  intro fuel1
  rw [my_free_of_magic cfg fuel1 a s2 hb h3]
  exact coalesce_ne_assert _ _ _

/-- Witness for C6: a request of 100 bytes on the fresh page-sized heap. -/
theorem C6_header_written_witness :
    cfgPage.MagicOK ∧
    find_free cfgPage 5 100 0 0 (fresh cfgPage) = (.ok (0x7f0000000000, 0), fresh cfgPage) ∧
    ∃ s2, my_malloc cfgPage 5 100 (fresh cfgPage) = .ok (0x7f0000000000 + sizeof_header_t, s2) ∧
      size_of s2.mem 0x7f0000000000 = 100 ∧
      magic_of cfgPage s2.mem 0x7f0000000000 = cfgPage.MAGIC ∧
      ∀ fuel1, my_free cfgPage fuel1 (0x7f0000000000 + sizeof_header_t) s2
        ≠ .error .assertFailed :=
  ⟨by decide, rfl,
   C6_header_written cfgPage 5 100 0x7f0000000000 0 (fresh cfgPage) (fresh cfgPage)
     (by decide) (by decide) rfl (by decide) (by decide)⟩

/-- Counterexample to C7: on a page-sized heap based at `0x7f000012d000` with
`MAGIC = 1234567`, after `A = my_malloc(8)`, `my_malloc(1631)`, `my_free(A)` the
freed node's successor link is `base + 1671`, whose low four bytes are `MAGIC`;
the magic field of `A`'s header therefore still equals `MAGIC`, and a second
`my_free(A)` passes the assertion for every fuel (it then links the node to
itself and `coalesce` does not return). -/
theorem C7_double_free_undetected :
    run cfgCollide 10 [.malloc 8, .malloc 1631, .free 0] (fresh cfgCollide) []
      = .ok (collided, [0x7f000012d000 + sizeof_header_t, 0x7f000012d000 + 40]) ∧
    IsList collided.mem collided.head [0x7f000012d000, 0x7f000012d000 + 1671] ∧
    (0x7f000012d000 + 1671) % 256 ^ cfgCollide.magicBytes = cfgCollide.MAGIC ∧
    magic_of cfgCollide collided.mem 0x7f000012d000 = cfgCollide.MAGIC ∧
    my_free cfgCollide 50 (0x7f000012d000 + sizeof_header_t) collided = .error .outOfFuel ∧
    ∀ fuel, my_free cfgCollide fuel (0x7f000012d000 + sizeof_header_t) collided
      ≠ .error .assertFailed :=
  ⟨rfl, by decide, by decide, by decide, rfl, fun fuel => by
    rw [my_free_of_magic cfgCollide fuel 0x7f000012d000 collided (by decide) (by decide)]
    exact coalesce_ne_assert _ _ _⟩

/-- C7, amended: let the free list be a finite chain whose node headers are
pairwise disjoint and disjoint from the header at `a`, which carries a valid
magic.  If `MAGIC` is not 0 and differs from the low `magicBytes` bytes of every
free node's address, then `my_free(a + 16)` returns, afterwards the magic field
at `a` differs from `MAGIC`, and a second `my_free(a + 16)` fails the
assertion.  In every state, `my_free(q)` fails the assertion (and so changes
nothing) whenever the magic field of the header before `q` differs from
`MAGIC`. -/
theorem C7_double_free_detected (cfg : Cfg) (fuel fuel2 a : Nat) (s : Heap) (l : List Nat)
    (hm : cfg.MagicOK) (hmz : cfg.MAGIC ≠ 0)
    (ha : a ≠ 0) (hb : a + sizeof_header_t < W)
    (hmag : magic_of cfg s.mem a = cfg.MAGIC)
    (hl : IsList s.mem s.head l)
    (hsep : (a :: l).Pairwise Sep)
    (hbnd : ∀ x ∈ l, x < W)
    (hcol : ∀ x ∈ l, x % 256 ^ cfg.magicBytes ≠ cfg.MAGIC)
    (hf : l.length + 1 ≤ fuel) :
    (∃ s2, my_free cfg fuel (a + sizeof_header_t) s = .ok s2 ∧
      magic_of cfg s2.mem a ≠ cfg.MAGIC ∧
      my_free cfg fuel2 (a + sizeof_header_t) s2 = .error .assertFailed) ∧
    (∀ (q f3 : Nat) (s3 : Heap),
      magic_of cfg s3.mem ((q + W - sizeof_header_t) % W) ≠ cfg.MAGIC →
      my_free cfg f3 q s3 = .error .assertFailed) := by
  refine ⟨?_, fun q f3 s3 h => my_free_of_bad_magic cfg f3 q s3 h⟩
  obtain ⟨s2, l1, hfree, hhead, -, hlist, hsub, -⟩ :=
    my_free_spec cfg fuel a s l ha hb hmag hl hsep hbnd hf
  have hbad : magic_of cfg s2.mem a ≠ cfg.MAGIC := by
    rw [magic_of_eq_next cfg s2.mem a hm.2.1]
    rw [hhead] at hlist
    have hnext : IsList s2.mem (next_of s2.mem a) l1 := hlist.2.2
    cases l1 with
    | nil =>
      have h0 : next_of s2.mem a = 0 := hnext
      rw [h0, Nat.zero_mod]
      exact fun h => hmz h.symm
    | cons x l1 =>
      rw [hnext.1]
      exact hcol x (hsub.subset (List.mem_cons_self _ _))
  refine ⟨s2, hfree, hbad, ?_⟩
  apply my_free_of_bad_magic
  rw [node_to_free_eq a hb]
  exact hbad

/-- Witness for the amended C7: the block allocated on the page-sized heap. -/
theorem C7_double_free_detected_witness :
    cfgPage.MagicOK ∧ cfgPage.MAGIC ≠ 0 ∧
    magic_of cfgPage oneBlock.mem 0x7f0000000000 = cfgPage.MAGIC ∧
    IsList oneBlock.mem oneBlock.head [0x7f0000000000 + 116] ∧
    (∃ s2, my_free cfgPage 5 (0x7f0000000000 + sizeof_header_t) oneBlock = .ok s2 ∧
      magic_of cfgPage s2.mem 0x7f0000000000 ≠ cfgPage.MAGIC ∧
      my_free cfgPage 5 (0x7f0000000000 + sizeof_header_t) s2 = .error .assertFailed) :=
  ⟨by decide, by decide, by decide, by decide,
   (C7_double_free_detected cfgPage 5 5 0x7f0000000000 oneBlock [0x7f0000000000 + 116]
     (by decide) (by decide) (by decide) (by decide) (by decide) (by decide) (by decide)
     (by decide) (by decide) (by decide)).1⟩

/-- Counterexample to C9: with the release order `my_free(A)` then
`my_free(B)` on the page-sized heap nothing is merged: the free list ends as
`[base + 80, base, base + 160]` with sizes 64, 64 and 3920, and
`number_of_free_nodes()` is 3 instead of 1. -/
theorem C9_release_A_then_B_counterexample :
    ∃ s ps, run cfgPage 10 [.malloc 64, .malloc 64, .free 0, .free 1] (Heap.initial zeroMem) []
        = .ok (s, ps) ∧
      ps = [0x7f0000000000 + 16, 0x7f0000000000 + 96] ∧
      IsList s.mem s.head [0x7f0000000000 + 80, 0x7f0000000000, 0x7f0000000000 + 160] ∧
      size_of s.mem (0x7f0000000000 + 80) = 64 ∧
      size_of s.mem 0x7f0000000000 = 64 ∧
      size_of s.mem (0x7f0000000000 + 160) = 3920 ∧
      (number_of_free_nodes cfgPage 10 (Heap.initial zeroMem)).1 = .ok 1 ∧
      (number_of_free_nodes cfgPage 10 s).1 = .ok 3 :=
  ⟨_, _, rfl, rfl, by decide, by decide, by decide, by decide, rfl, rfl⟩

/-- C9, amended: on a fresh heap of at least 176 bytes, `A = my_malloc(64)`
returns `base + 16` and `B = my_malloc(64)` returns `base + 96` (the block of
`B` starts where the block of `A` ends); after `my_free(B)` then `my_free(A)`
the free list is the single node at `base` of size
`HEAP_SIZE - sizeof(node_t)`, and `number_of_free_nodes()` is 1, its value
before the allocations. -/
theorem C9_release_B_then_A (cfg : Cfg) (fuel : Nat) (s0 : Heap)
    (hm : cfg.MagicOK) (h0 : s0.head = 0) (hr : cfg.RegionOK s0.regions)
    (hH : 176 ≤ cfg.HEAP_SIZE) (hf : 2 ≤ fuel) :
    ∃ sA sB s3 s4,
      my_malloc cfg fuel 64 s0 = .ok (cfg.mmap s0.regions + 16, sA) ∧
      my_malloc cfg fuel 64 sA = .ok (cfg.mmap s0.regions + 16 + 64 + 16, sB) ∧
      my_free cfg fuel (cfg.mmap s0.regions + 16 + 64 + 16) sB = .ok s3 ∧
      my_free cfg fuel (cfg.mmap s0.regions + 16) s3 = .ok s4 ∧
      IsList s4.mem s4.head [cfg.mmap s0.regions] ∧
      size_of s4.mem (cfg.mmap s0.regions) = cfg.HEAP_SIZE - sizeof_node_t ∧
      number_of_free_nodes cfg fuel s4 = (.ok 1, s4) ∧
      (number_of_free_nodes cfg fuel s0).1 = .ok 1 := by
  have hWv := W_val
  obtain ⟨hh, hh0, hsz, hzero, hlist0⟩ := heap_fresh_block cfg s0 h0 hr (by omega)
  have hpre : (number_of_free_nodes cfg fuel s0).1 = .ok 1 := by
    rw [number_of_free_nodes_heap cfg fuel s0 hh0,
      number_of_free_nodes_of_list cfg fuel _ _ hh0 hlist0 (by simp; omega)]
    rfl
  have hcall : my_malloc cfg fuel 64 s0 = my_malloc cfg fuel 64 (heap cfg s0) :=
    my_malloc_heap cfg fuel 64 s0 hh0
  have hb0 : cfg.mmap s0.regions ≠ 0 := hr.1
  have hbW : cfg.mmap s0.regions + cfg.HEAP_SIZE < W := hr.2
  generalize cfg.mmap s0.regions = b at *
  generalize cfg.HEAP_SIZE = H at *
  -- A = my_malloc(64)
  obtain ⟨sA, hA, hAh, -, hAs, hAn, hAhs, hAm, hAz, -⟩ :=
    my_malloc_head_zero cfg fuel 64 b (H - 16) (heap cfg s0) hm (by omega) hh hb0 (by omega)
      hsz (by omega) hzero
  -- B = my_malloc(64)
  obtain ⟨sB, hB, hBh, -, hBs, hBn, hBhs, hBm, -, hBf⟩ :=
    my_malloc_head_zero cfg fuel 64 (b + 16 + 64) (H - 16 - 16 - 64) sA hm (by omega) hAh
      (by omega) (by omega) hAs (by omega)
      (fun x h1 h2 => hAz x (by omega) (by omega))
  have hBA : ∀ x, b ≤ x → x < b + 16 → sB.mem x = sA.mem x :=
    fun x _ h2 => hBf x (Or.inl (by omega))
  have hBAs : size_of sB.mem b = 64 := by rw [size_of_congr _ _ b hBA, hAhs]
  have hBAm : magic_of cfg sB.mem b = cfg.MAGIC := by
    rw [magic_of_congr cfg _ _ b hm.2.1 hBA, hAm]
  -- my_free(B)
  obtain ⟨s3, h3, h3h, -, h3s, h3n, h3f⟩ :=
    my_free_adjacent_head cfg fuel (b + 16 + 64) sB (by omega)
      (by simp only [sizeof_header_t]; omega) hBm (by omega) (by omega)
      (by rw [hBhs, hBh]) (by rw [hBhs, hBh, hBs]; omega)
  rw [hBh, hBs, hBhs] at h3s
  rw [hBh, hBn] at h3n
  have h3A : ∀ x, b ≤ x → x < b + 16 → s3.mem x = sB.mem x :=
    fun x _ h2 => h3f x (Or.inl (by omega))
  have h3As : size_of s3.mem b = 64 := by rw [size_of_congr _ _ b h3A, hBAs]
  have h3Am : magic_of cfg s3.mem b = cfg.MAGIC := by
    rw [magic_of_congr cfg _ _ b hm.2.1 h3A, hBAm]
  -- my_free(A)
  obtain ⟨s4, h4, h4h, -, h4s, h4n, -⟩ :=
    my_free_adjacent_head cfg fuel b s3 (by omega)
      (by simp only [sizeof_header_t]; omega) h3Am (by omega) (by omega)
      (by rw [h3As, h3h]) (by rw [h3As, h3h, h3s]; omega)
  rw [h3h, h3s, h3As] at h4s
  rw [h3h, h3n] at h4n
  have hl4 : IsList s4.mem s4.head [b] := ⟨h4h, hb0, h4n⟩
  refine ⟨sA, sB, s3, s4, by rw [hcall, hA], hB, h3, h4, hl4, ?_, ?_, hpre⟩
  · rw [h4s]; simp only [sizeof_node_t]; omega
  · exact number_of_free_nodes_of_list cfg fuel s4 [b] (by rw [h4h]; exact hb0) hl4
      (by simp; omega)

/-- Witness for the amended C9 on the page-sized heap. -/
theorem C9_release_B_then_A_witness :
    cfgPage.MagicOK ∧ (Heap.initial zeroMem).head = 0 ∧ cfgPage.RegionOK 0 ∧
    ∃ sA sB s3 s4,
      my_malloc cfgPage 5 64 (Heap.initial zeroMem) = .ok (0x7f0000000000 + 16, sA) ∧
      my_malloc cfgPage 5 64 sA = .ok (0x7f0000000000 + 16 + 64 + 16, sB) ∧
      my_free cfgPage 5 (0x7f0000000000 + 16 + 64 + 16) sB = .ok s3 ∧
      my_free cfgPage 5 (0x7f0000000000 + 16) s3 = .ok s4 ∧
      IsList s4.mem s4.head [0x7f0000000000] ∧
      size_of s4.mem 0x7f0000000000 = 4096 - sizeof_node_t ∧
      number_of_free_nodes cfgPage 5 s4 = (.ok 1, s4) ∧
      (number_of_free_nodes cfgPage 5 (Heap.initial zeroMem)).1 = .ok 1 :=
  ⟨by decide, rfl, by decide,
   C9_release_B_then_A cfgPage 5 (Heap.initial zeroMem) (by decide) rfl (by decide)
     (by decide) (by decide)⟩

/-- C10: with `HEAP_SIZE = 2 * sizeof(header_t) + 100` and a fresh heap, the
first `my_malloc(100)` returns a non-`NULL` pointer `p` and leaves a free node
of size 0, a second `my_malloc(100)` returns `NULL` (leaving the state as it
was), and after `my_free(p)` a third `my_malloc(100)` returns non-`NULL`. -/
theorem C10_room_for_one_block (cfg : Cfg) (fuel : Nat) (s0 : Heap)
    (hm : cfg.MagicOK) (h0 : s0.head = 0) (hr : cfg.RegionOK s0.regions)
    (hH : cfg.HEAP_SIZE = 2 * sizeof_header_t + 100) (hf : 2 ≤ fuel) :
    ∃ p s1 s3 p3 s4,
      my_malloc cfg fuel 100 s0 = .ok (p, s1) ∧ p ≠ 0 ∧
      size_of s1.mem s1.head = 0 ∧
      my_malloc cfg fuel 100 s1 = .ok (0, s1) ∧
      my_free cfg fuel p s1 = .ok s3 ∧
      my_malloc cfg fuel 100 s3 = .ok (p3, s4) ∧ p3 ≠ 0 := by
  have hWv := W_val
  simp only [sizeof_header_t] at hH
  obtain ⟨hh, hh0, hsz, hzero, -⟩ := heap_fresh_block cfg s0 h0 hr (by omega)
  have hcall : my_malloc cfg fuel 100 s0 = my_malloc cfg fuel 100 (heap cfg s0) :=
    my_malloc_heap cfg fuel 100 s0 hh0
  have hb0 : cfg.mmap s0.regions ≠ 0 := hr.1
  have hbW : cfg.mmap s0.regions + cfg.HEAP_SIZE < W := hr.2
  generalize cfg.mmap s0.regions = b at *
  rw [hH] at hsz hzero hbW
  -- first allocation
  obtain ⟨s1, h1, h1h, -, h1s, h1n, h1hs, h1m, -, -⟩ :=
    my_malloc_head_zero cfg fuel 100 b (132 - 16) (heap cfg s0) hm (by omega) hh hb0 (by omega)
      hsz (by omega) hzero
  have h1s0 : size_of s1.mem (b + 16 + 100) = 0 := by rw [h1s]
  have hl1 : IsList s1.mem s1.head [b + 16 + 100] := ⟨h1h, by omega, h1n⟩
  have h1ne : s1.head ≠ 0 := by rw [h1h]; omega
  -- second allocation fails
  have hsp : (sizeof_header_t + 100) % W = 116 := by
    simp only [sizeof_header_t]; exact Nat.mod_eq_of_lt (by omega)
  have h2 : my_malloc cfg fuel 100 s1 = .ok (0, s1) := by
    apply my_malloc_of_not_found cfg fuel 100 s1 s1 0
    rw [find_free_of_ne cfg _ _ _ _ s1 h1ne, hsp,
      find_free_loop_none s1.mem 116 [b + 16 + 100] fuel s1.head 0 0 0 hl1 (by simp; omega)
        (by intro x hx; simp only [List.mem_singleton] at hx; rw [hx, h1s0]; omega)]
  -- release
  obtain ⟨s3, h3, h3h, -, h3s, -, -⟩ :=
    my_free_adjacent_head cfg fuel b s1 (by omega)
      (by simp only [sizeof_header_t]; omega) h1m h1ne (by rw [h1h]; omega)
      (by rw [h1hs, h1h]) (by rw [h1hs, h1h, h1s0]; omega)
  rw [h1hs, h1h, h1s0] at h3s
  -- third allocation
  have h3ne : s3.head ≠ 0 := by rw [h3h]; exact hb0
  obtain ⟨f, rfl⟩ : ∃ f, fuel = f + 1 := ⟨fuel - 1, by omega⟩
  have hff : find_free cfg (f + 1) 100 0 0 s3 = (.ok (b, 0), s3) := by
    rw [find_free_of_ne cfg _ _ _ _ s3 h3ne, hsp]
    simp [find_free_loop, h3h, hb0, h3s]
  obtain ⟨s4, h4, -⟩ := my_malloc_of_find cfg (f + 1) 100 s3 s3 b 0 hff hb0
  have hret : (b + sizeof_header_t) % W = b + 16 := by
    simp only [sizeof_header_t]; exact Nat.mod_eq_of_lt (by omega)
  rw [hret] at h4
  refine ⟨b + 16, s1, s3, b + 16, s4, by rw [hcall, h1], by omega, by rw [h1h, h1s0], h2, h3,
    h4, by omega⟩

/-- Witness for C10 on the 132-byte heap. -/
theorem C10_room_for_one_block_witness :
    cfgOne.MagicOK ∧ cfgOne.RegionOK 0 ∧ cfgOne.HEAP_SIZE = 2 * sizeof_header_t + 100 ∧
    ∃ p s1 s3 p3 s4,
      my_malloc cfgOne 2 100 (Heap.initial zeroMem) = .ok (p, s1) ∧ p ≠ 0 ∧
      size_of s1.mem s1.head = 0 ∧
      my_malloc cfgOne 2 100 s1 = .ok (0, s1) ∧
      my_free cfgOne 2 p s1 = .ok s3 ∧
      my_malloc cfgOne 2 100 s3 = .ok (p3, s4) ∧ p3 ≠ 0 :=
  ⟨by decide, by decide, by decide,
   C10_room_for_one_block cfgOne 2 (Heap.initial zeroMem) (by decide) rfl (by decide)
     (by decide) (by decide)⟩

/-- Counterexample to C11: on the page-sized heap, after `A = my_malloc(64)`,
`my_malloc(3984)` and `my_free(A)` the free list holds the released node of
size 64 and the remainder node of size 0; the next `my_malloc(64)` needs a node
of size `sizeof(header_t) + 64 = 80` and returns `NULL`. -/
theorem C11_exact_fit_not_reusable :
    ∃ s ps, run cfgPage 10 [.malloc 64, .malloc 3984, .free 0] (fresh cfgPage) []
        = .ok (s, ps) ∧
      ps = [0x7f0000000000 + 16, 0x7f0000000000 + 96] ∧
      IsList s.mem s.head [0x7f0000000000, 0x7f0000000000 + 4080] ∧
      size_of s.mem 0x7f0000000000 = 64 ∧
      size_of s.mem (0x7f0000000000 + 4080) = 0 ∧
      my_malloc cfgPage 10 64 s = .ok (0, s) :=
  ⟨_, _, rfl, rfl, by decide, by decide, by decide, rfl⟩

/-- C11, amended: if the block that physically follows the released block is
the head of the free list at the time of the release, and the two sizes plus
`sizeof(node_t)` do not overflow, then `my_free(p)` merges the two and the next
`my_malloc` of the recorded size succeeds and returns `p` again. -/
theorem C11_reuse_after_merge (cfg : Cfg) (fuel a : Nat) (s : Heap)
    (hf : 1 ≤ fuel) (ha : a ≠ 0) (hb : a + sizeof_header_t < W)
    (hmag : magic_of cfg s.mem a = cfg.MAGIC)
    (hh0 : s.head ≠ 0) (hhW : s.head < W)
    (hadj : a + 16 + size_of s.mem a = s.head)
    (hov : size_of s.mem a + size_of s.mem s.head + 16 < W) :
    ∃ s2 s3, my_free cfg fuel (a + sizeof_header_t) s = .ok s2 ∧
      my_malloc cfg fuel (size_of s.mem a) s2 = .ok (a + sizeof_header_t, s3) ∧
      a + sizeof_header_t ≠ 0 := by
  have hWv := W_val
  obtain ⟨s2, h2, h2h, -, h2s, -, -⟩ :=
    my_free_adjacent_head cfg fuel a s hf hb hmag hh0 hhW hadj hov
  obtain ⟨f, rfl⟩ : ∃ f, fuel = f + 1 := ⟨fuel - 1, by omega⟩
  have h2ne : s2.head ≠ 0 := by rw [h2h]; exact ha
  have hsp : (sizeof_header_t + size_of s.mem a) % W = 16 + size_of s.mem a := by
    simp only [sizeof_header_t]; exact Nat.mod_eq_of_lt (by omega)
  have hff : find_free cfg (f + 1) (size_of s.mem a) 0 0 s2 = (.ok (a, 0), s2) := by
    rw [find_free_of_ne cfg _ _ _ _ s2 h2ne, hsp]
    have : 16 + size_of s.mem a ≤ size_of s2.mem a := by rw [h2s]; omega
    simp [find_free_loop, h2h, ha, this]
  obtain ⟨s3, h3, -⟩ := my_malloc_of_find cfg (f + 1) (size_of s.mem a) s2 s2 a 0 hff ha
  rw [Nat.mod_eq_of_lt hb] at h3
  exact ⟨s2, s3, h2, h3, by simp [sizeof_header_t]⟩

/-- Witness for the amended C11: the block allocated on the page-sized heap. -/
theorem C11_reuse_after_merge_witness :
    magic_of cfgPage oneBlock.mem 0x7f0000000000 = cfgPage.MAGIC ∧
    0x7f0000000000 + 16 + size_of oneBlock.mem 0x7f0000000000 = oneBlock.head ∧
    size_of oneBlock.mem 0x7f0000000000 = 100 ∧
    ∃ s2 s3, my_free cfgPage 5 (0x7f0000000000 + sizeof_header_t) oneBlock = .ok s2 ∧
      my_malloc cfgPage 5 (size_of oneBlock.mem 0x7f0000000000) s2
        = .ok (0x7f0000000000 + sizeof_header_t, s3) ∧
      0x7f0000000000 + sizeof_header_t ≠ 0 :=
  ⟨by decide, by decide, by decide,
   C11_reuse_after_merge cfgPage 5 0x7f0000000000 oneBlock (by decide) (by decide)
     (by decide) (by decide) (by decide) (by decide) (by decide) (by decide)⟩

/-- C12, evaluated at the failing input: on the page-sized heap, after
`X = my_malloc(0)`, `Y = my_malloc(8)`, `Z = my_malloc(100)`, `V = my_malloc(24)`,
`my_free(Z)`, `my_free(X)`, `my_free(V)`, the call `my_malloc(50)` returns
`base + 16`; the block `Y` (header at `base + 16`, payload `[base + 32, base + 40)`)
was never released and still carries its size and magic, and its payload lies
inside the new payload `[base + 16, base + 66)`. -/
theorem C12_live_blocks_overlap :
    ∃ s ps, run cfgPage 10
        [.malloc 0, .malloc 8, .malloc 100, .malloc 24, .free 2, .free 0, .free 3, .malloc 50]
        (fresh cfgPage) [] = .ok (s, ps) ∧
      ps = [0x7f0000000000 + 16, 0x7f0000000000 + 32, 0x7f0000000000 + 56,
            0x7f0000000000 + 172, 0x7f0000000000 + 16] ∧
      size_of s.mem (0x7f0000000000 + 16) = 8 ∧
      magic_of cfgPage s.mem (0x7f0000000000 + 16) = cfgPage.MAGIC ∧
      size_of s.mem 0x7f0000000000 = 50 ∧
      magic_of cfgPage s.mem 0x7f0000000000 = cfgPage.MAGIC ∧
      (0x7f0000000000 + 16 ≤ 0x7f0000000000 + 32 ∧
        0x7f0000000000 + 32 + 8 ≤ 0x7f0000000000 + 16 + 50) :=
  ⟨_, _, rfl, rfl, by decide, by decide, by decide, by decide, by decide⟩

/-- C13, evaluated at the failing input: after `A = my_malloc(64)`,
`B = my_malloc(64)`, `my_free(A)` the identity holds
(`3984 + 16 * 2 + (16 + 64) = 4096`); after a further `my_malloc(8)` the free
list is one node of 40 bytes and the live blocks have payloads 64 and 8, so the
left side is `40 + 16 * 1 + (16 + 64) + (16 + 8) = 160`, not `HEAP_SIZE`. -/
theorem C13_accounting_broken :
    ∃ s ps, run cfgPage 10 [.malloc 64, .malloc 64, .free 0] (fresh cfgPage) [] = .ok (s, ps) ∧
      (available_memory cfgPage 10 s).1 = .ok 3984 ∧
      (number_of_free_nodes cfgPage 10 s).1 = .ok 2 ∧
      3984 + sizeof_header_t * 2 + (sizeof_header_t + 64) = cfgPage.HEAP_SIZE ∧
      ∃ s1 ps1, run cfgPage 10 [.malloc 8] s ps = .ok (s1, ps1) ∧
        ps1 = [0x7f0000000000 + 16, 0x7f0000000000 + 96, 0x7f0000000000 + 16] ∧
        size_of s1.mem (0x7f0000000000 + 80) = 64 ∧
        size_of s1.mem 0x7f0000000000 = 8 ∧
        (available_memory cfgPage 10 s1).1 = .ok 40 ∧
        (number_of_free_nodes cfgPage 10 s1).1 = .ok 1 ∧
        40 + sizeof_header_t * 1 + ((sizeof_header_t + 64) + (sizeof_header_t + 8)) = 160 ∧
        160 ≠ cfgPage.HEAP_SIZE :=
  ⟨_, _, rfl, rfl, rfl, by decide, _, _, rfl, rfl, by decide, by decide, rfl, rfl, by decide,
    by decide⟩

/-- C14, evaluated at the failing input: with a signed plain `char`,
`p = my_malloc(0)`, `my_free(p)`, `my_malloc(0)` leaves `head == NULL` with one
region mapped, and the next `number_of_free_nodes()` maps a second region;
with an unsigned plain `char` the same happens after `p = my_malloc(16)`,
`my_free(p)`, `q = my_malloc(100)`, `my_malloc(8)`, `my_free(q)`,
`my_malloc(16)`. -/
theorem C14_head_becomes_null :
    (∃ s ps, run cfgPage 10 [.malloc 0, .free 0, .malloc 0] (Heap.initial zeroMem) []
        = .ok (s, ps) ∧
      ps = [0x7f0000000000 + 16, 0x7f0000000000 + 16] ∧
      s.head = 0 ∧ s.regions = 1 ∧
      (number_of_free_nodes cfgPage 10 s).2.regions = 2 ∧
      (number_of_free_nodes cfgPage 10 s).2.head = 0x7f0000000000 + 0x10000) ∧
    (∃ s ps, run cfgPageU 10
        [.malloc 16, .free 0, .malloc 100, .malloc 8, .free 1, .malloc 16]
        (Heap.initial zeroMem) [] = .ok (s, ps) ∧
      ps = [0x7f0000000000 + 16, 0x7f0000000000 + 16, 0x7f0000000000 + 132,
            0x7f0000000000 + 16] ∧
      s.head = 0 ∧ s.regions = 1 ∧
      (number_of_free_nodes cfgPageU 10 s).2.regions = 2) :=
  ⟨⟨_, _, rfl, rfl, rfl, rfl, rfl, rfl⟩, ⟨_, _, rfl, rfl, rfl, rfl, rfl⟩⟩

/-- C15: on a free list that is a finite chain `l` (after `heap()`), with
`space = sizeof(header_t) + size` as `find_free` computes it, `find_free` returns:
for every decomposition `l = pre ++ a :: post` in which every node of `pre` is
smaller than `space` and `a` is not, `found = a` and `previous` = the last node
of `pre` (`NULL` when `pre` is empty); `found = previous = NULL` when every node
is smaller than `space`; and in all cases `found` is `NULL` if and only if no
node has size at least `space`. -/
theorem C15_first_fit (cfg : Cfg) (fuel size : Nat) (s : Heap) (l : List Nat)
    (hl : IsList (heap cfg s).mem (heap cfg s).head l) (hf : l.length < fuel) :
    (∀ pre a post, l = pre ++ a :: post →
      (∀ x ∈ pre, size_of (heap cfg s).mem x < (sizeof_header_t + size) % W) →
      (sizeof_header_t + size) % W ≤ size_of (heap cfg s).mem a →
      find_free cfg fuel size 0 0 s
        = (.ok (a, (0 :: pre).getLast (List.cons_ne_nil 0 pre)), heap cfg s)) ∧
    ((∀ x ∈ l, size_of (heap cfg s).mem x < (sizeof_header_t + size) % W) →
      find_free cfg fuel size 0 0 s = (.ok (0, 0), heap cfg s)) ∧
    (∃ found previous, find_free cfg fuel size 0 0 s = (.ok (found, previous), heap cfg s) ∧
      (found = 0 ↔ ∀ x ∈ l, size_of (heap cfg s).mem x < (sizeof_header_t + size) % W)) := by
  have hfirst : ∀ pre a post, l = pre ++ a :: post →
      (∀ x ∈ pre, size_of (heap cfg s).mem x < (sizeof_header_t + size) % W) →
      (sizeof_header_t + size) % W ≤ size_of (heap cfg s).mem a →
      find_free cfg fuel size 0 0 s
        = (.ok (a, (0 :: pre).getLast (List.cons_ne_nil 0 pre)), heap cfg s) := by
    intro pre a post e hsmall hbig
    have hlen : pre.length < fuel := by
      have := congrArg List.length e
      simp at this; omega
    simp only [find_free]
    rw [find_free_loop_first _ _ pre a post fuel _ 0 0 0 (e ▸ hl) hlen hsmall hbig]
  have hnone : (∀ x ∈ l, size_of (heap cfg s).mem x < (sizeof_header_t + size) % W) →
      find_free cfg fuel size 0 0 s = (.ok (0, 0), heap cfg s) := by
    intro hsmall
    simp only [find_free]
    rw [find_free_loop_none _ _ l fuel _ 0 0 0 hl hf hsmall]
  refine ⟨hfirst, hnone, ?_⟩
  by_cases hex : ∃ x ∈ l, (sizeof_header_t + size) % W ≤ size_of (heap cfg s).mem x
  · obtain ⟨pre, a, post, e, hsmall, hbig⟩ := exists_first_fit _ _ l hex
    refine ⟨a, _, hfirst pre a post e hsmall hbig, ?_⟩
    have hal : a ∈ l := by rw [e]; simp
    have hane : a ≠ 0 := IsList_ne_zero _ l _ hl a hal
    constructor
    · intro h; exact absurd h hane
    · intro h; have := h a hal; omega
  · have hsmall : ∀ x ∈ l, size_of (heap cfg s).mem x < (sizeof_header_t + size) % W := by
      intro x hx
      by_contra hc
      exact hex ⟨x, hx, by omega⟩
    exact ⟨0, 0, hnone hsmall, fun _ => hsmall, fun _ => rfl⟩

/-- Witness for C15 on the fresh page-sized heap. -/
theorem C15_first_fit_witness :
    IsList (heap cfgPage (fresh cfgPage)).mem (heap cfgPage (fresh cfgPage)).head
      [0x7f0000000000] ∧
    find_free cfgPage 5 100 0 0 (fresh cfgPage)
      = (.ok (0x7f0000000000, 0), heap cfgPage (fresh cfgPage)) ∧
    find_free cfgPage 5 5000 0 0 (fresh cfgPage) = (.ok (0, 0), heap cfgPage (fresh cfgPage)) :=
  have h := C15_first_fit cfgPage 5 100 (fresh cfgPage) [0x7f0000000000] (by decide) (by decide)
  have h2 := C15_first_fit cfgPage 5 5000 (fresh cfgPage) [0x7f0000000000] (by decide)
    (by decide)
  ⟨by decide, h.1 [] 0x7f0000000000 [] rfl (by decide) (by decide), h2.2.1 (by decide)⟩

/-- Counterexample to C16: after `A = my_malloc(64)`, `B = my_malloc(64)`,
`my_free(A)`, `my_free(B)` the free list is `[base + 80, base, base + 160]`; the
block that physically follows the node `base + 80` is the free node
`base + 160`, third on the list, and `coalesce(base + 80)` changes nothing. -/
theorem C16_successor_later_in_list :
    ∃ s ps, run cfgPage 10 [.malloc 64, .malloc 64, .free 0, .free 1] (fresh cfgPage) []
        = .ok (s, ps) ∧
      IsList s.mem s.head [0x7f0000000000 + 80, 0x7f0000000000, 0x7f0000000000 + 160] ∧
      size_of s.mem (0x7f0000000000 + 80) = 64 ∧
      0x7f0000000000 + 80 + 64 + sizeof_node_t = 0x7f0000000000 + 160 ∧
      coalesce 10 (0x7f0000000000 + 80) s = .ok s :=
  ⟨_, _, rfl, by decide, by decide, by decide, rfl⟩

/-- C16, amended: if the direct list successor `y` of a node `n` of a
well-formed free list is the block that physically follows `n`
(`y = n + n.size + sizeof(node_t)`), then `coalesce(n)` merges it into `n`: the
size of `n` grows by the size of `y` plus `sizeof(node_t)`, `n` takes over the
successor of `y`, `y` leaves the list, and every other node keeps its size and
successor. -/
theorem C16_merge_list_successor (fuel n y : Nat) (s : Heap) (pre post : List Nat)
    (hf : 1 ≤ fuel)
    (hl : IsList s.mem s.head (pre ++ n :: y :: post))
    (hsep : (pre ++ n :: y :: post).Pairwise Sep)
    (hadj : n + size_of s.mem n + sizeof_node_t = y)
    (hov : size_of s.mem n + size_of s.mem y + sizeof_node_t < W) :
    ∃ s2, coalesce fuel n s = .ok s2 ∧ s2.head = s.head ∧
      IsList s2.mem s2.head (pre ++ n :: post) ∧
      size_of s2.mem n = size_of s.mem n + size_of s.mem y + sizeof_node_t ∧
      next_of s2.mem n = next_of s.mem y ∧
      (∀ x ∈ pre ++ post, size_of s2.mem x = size_of s.mem x ∧
        next_of s2.mem x = next_of s.mem x) := by
  obtain ⟨f, rfl⟩ : ∃ f, fuel = f + 1 := ⟨fuel - 1, by omega⟩
  have hWv := W_val
  have hsuf := IsList_suffix s.mem pre n (y :: post) _ hl
  have hn : next_of s.mem n = y := hsuf.2.2.1
  have hy0 : y ≠ 0 := hsuf.2.2.2.1
  have hyW : y < W := by rw [← hn]; exact next_of_lt _ _
  have hp := List.pairwise_append.mp hsep
  have hny : Sep n y := List.rel_of_pairwise_cons hp.2.1 (List.mem_cons_self _ _)
  simp only [sizeof_node_t] at hadj hov
  have hbs : (n + (size_of s.mem n + sizeof_node_t) % W) % W = y := by
    have e1 : (size_of s.mem n + sizeof_node_t) % W = size_of s.mem n + 16 := by
      simp only [sizeof_node_t]; exact Nat.mod_eq_of_lt (by omega)
    rw [e1, Nat.mod_eq_of_lt (by omega)]; omega
  have hstep := coalesce_loop_adjacent s.mem ((size_of s.mem n + sizeof_node_t) % W) f n y
    hn hy0 hbs hny
  refine ⟨{ head := s.head, mem := mergeNodes s.mem n y, regions := s.regions }, ?_, rfl,
    IsList_mergeNodes s.mem n y post pre _ hl hsep, ?_, next_of_mergeNodes_self _ _ _, ?_⟩
  · simp only [coalesce, hstep]
  · show size_of (mergeNodes s.mem n y) n = _
    rw [size_of_mergeNodes_self]
    have e1 : (size_of s.mem y + sizeof_node_t) % W = size_of s.mem y + 16 := by
      simp only [sizeof_node_t]; exact Nat.mod_eq_of_lt (by omega)
    rw [e1, Nat.mod_eq_of_lt (by omega)]
    simp only [sizeof_node_t]; omega
  · intro x hx
    have hsx : Sep n x := by
      rcases List.mem_append.mp hx with h | h
      · exact (hp.2.2 x h n (List.mem_cons_self _ _)).symm
      · exact List.rel_of_pairwise_cons hp.2.1 (List.mem_cons_of_mem _ h)
    exact ⟨size_of_mergeNodes_sep _ _ _ _ hsx, next_of_mergeNodes_sep _ _ _ _ hsx⟩

/-- Witness for the amended C16: the released block and the remainder node of
the page-sized heap. -/
theorem C16_merge_list_successor_witness :
    IsList (pushed 0x7f0000000000 oneBlock).mem (pushed 0x7f0000000000 oneBlock).head
      ([] ++ 0x7f0000000000 :: (0x7f0000000000 + 116) :: []) ∧
    0x7f0000000000 + size_of (pushed 0x7f0000000000 oneBlock).mem 0x7f0000000000
      + sizeof_node_t = 0x7f0000000000 + 116 ∧
    ∃ s2, coalesce 5 0x7f0000000000 (pushed 0x7f0000000000 oneBlock) = .ok s2 ∧
      s2.head = (pushed 0x7f0000000000 oneBlock).head ∧
      IsList s2.mem s2.head ([] ++ 0x7f0000000000 :: []) ∧
      size_of s2.mem 0x7f0000000000
        = size_of (pushed 0x7f0000000000 oneBlock).mem 0x7f0000000000
          + size_of (pushed 0x7f0000000000 oneBlock).mem (0x7f0000000000 + 116)
          + sizeof_node_t ∧
      next_of s2.mem 0x7f0000000000
        = next_of (pushed 0x7f0000000000 oneBlock).mem (0x7f0000000000 + 116) ∧
      (∀ x ∈ [] ++ [],
        size_of s2.mem x = size_of (pushed 0x7f0000000000 oneBlock).mem x ∧
        next_of s2.mem x = next_of (pushed 0x7f0000000000 oneBlock).mem x) :=
  ⟨by decide, by decide,
   C16_merge_list_successor 5 0x7f0000000000 (0x7f0000000000 + 116)
     (pushed 0x7f0000000000 oneBlock) [] [] (by decide) (by decide) (by decide) (by decide)
     (by decide)⟩

/-- C17, evaluated at the failing input: on the page-sized heap, after
`X = my_malloc(0)`, `Y = my_malloc(8)`, `Z = my_malloc(100)`, `V = my_malloc(24)`,
`my_free(Z)`, `my_free(X)`, the call `my_free(V)` runs `coalesce(V)` on the list
`[V, X, Z, R]` (`V = base + 156`, `X = base`, `Z = base + 40`); it leaves the
size of `V` at 24 and changes the size of `X` from 0 to 116, absorbing `Z`,
which starts neither at `V + 24 + 16` nor at `X + 0 + 16`; the live block `Y`
at `base + 16` lies between `X` and `Z`. -/
theorem C17_merge_at_later_node :
    ∃ s ps, run cfgPage 10
        [.malloc 0, .malloc 8, .malloc 100, .malloc 24, .free 2, .free 0]
        (fresh cfgPage) [] = .ok (s, ps) ∧
      ps = [0x7f0000000000 + 16, 0x7f0000000000 + 32, 0x7f0000000000 + 56,
            0x7f0000000000 + 172] ∧
      IsList (pushed (0x7f0000000000 + 156) s).mem (pushed (0x7f0000000000 + 156) s).head
        [0x7f0000000000 + 156, 0x7f0000000000, 0x7f0000000000 + 40, 0x7f0000000000 + 196] ∧
      size_of (pushed (0x7f0000000000 + 156) s).mem (0x7f0000000000 + 156) = 24 ∧
      size_of (pushed (0x7f0000000000 + 156) s).mem 0x7f0000000000 = 0 ∧
      size_of (pushed (0x7f0000000000 + 156) s).mem (0x7f0000000000 + 40) = 100 ∧
      ∃ s2, coalesce 10 (0x7f0000000000 + 156) (pushed (0x7f0000000000 + 156) s) = .ok s2 ∧
        my_free cfgPage 10 (0x7f0000000000 + 172) s = .ok s2 ∧
        IsList s2.mem s2.head
          [0x7f0000000000 + 156, 0x7f0000000000, 0x7f0000000000 + 196] ∧
        size_of s2.mem (0x7f0000000000 + 156) = 24 ∧
        size_of s2.mem 0x7f0000000000 = 116 ∧
        0x7f0000000000 + 40 ≠ 0x7f0000000000 + 156 + 24 + sizeof_node_t ∧
        0x7f0000000000 + 40 ≠ 0x7f0000000000 + 0 + sizeof_node_t ∧
        size_of s2.mem (0x7f0000000000 + 16) = 8 ∧
        magic_of cfgPage s2.mem (0x7f0000000000 + 16) = cfgPage.MAGIC :=
  ⟨_, _, rfl, rfl, by decide, by decide, by decide, by decide, _, rfl, rfl, by decide,
    by decide, by decide, by decide, by decide, by decide, by decide⟩

/-- What `coalesce(n)` changes on a finite list with pairwise disjoint node
headers: nothing, or exactly one node `x` among `n` and the nodes after it,
which absorbs its direct list successor `y`; no byte outside the header of `x`
changes, and when `x` is `n` the node `y` is at `n + n.size + sizeof(node_t)`
(modulo `2 ^ 64`). -/
theorem coalesce_frame (fuel n : Nat) (s : Heap) (pfx rest : List Nat)
    (hl : IsList s.mem s.head (pfx ++ n :: rest))
    (hsep : (pfx ++ n :: rest).Pairwise Sep)
    (hf : rest.length < fuel) :
    coalesce fuel n s = .ok s ∨
    ∃ s2 pre x y post, coalesce fuel n s = .ok s2 ∧ s2.head = s.head ∧
      n :: rest = pre ++ x :: y :: post ∧
      IsList s2.mem s2.head (pfx ++ pre ++ x :: post) ∧
      size_of s2.mem x = (size_of s.mem x + (size_of s.mem y + sizeof_node_t) % W) % W ∧
      next_of s2.mem x = next_of s.mem y ∧
      (∀ z ∈ pfx ++ pre ++ y :: post,
        size_of s2.mem z = size_of s.mem z ∧ next_of s2.mem z = next_of s.mem z) ∧
      (∀ a, (a < x ∨ x + 16 ≤ a) → s2.mem a = s.mem a) ∧
      (pre = [] → x = n ∧ y = (n + (size_of s.mem n + sizeof_node_t) % W) % W) := by
  have hsuf := IsList_suffix s.mem pfx n rest _ hl
  have hp := List.pairwise_append.mp hsep
  rcases coalesce_loop_spec s.mem ((size_of s.mem n + sizeof_node_t) % W) rest fuel n hsuf
      hp.2.1 hf with ⟨-, h2⟩ | ⟨pre, x, y, post, h1, -, h3, h4⟩
  · left
    simp only [coalesce, h2]
  · right
    have e : pfx ++ n :: rest = (pfx ++ pre) ++ x :: y :: post := by
      rw [h1, List.append_assoc]
    rw [e] at hl hsep
    have hq := List.pairwise_append.mp hsep
    refine ⟨{ head := s.head, mem := mergeNodes s.mem x y, regions := s.regions },
      pre, x, y, post, ?_, rfl, h1, IsList_mergeNodes s.mem x y post (pfx ++ pre) _ hl hsep,
      size_of_mergeNodes_self _ _ _, next_of_mergeNodes_self _ _ _, ?_, ?_, ?_⟩
    · simp only [coalesce, h4]
    · intro z hz
      have hsx : Sep x z := by
        rcases List.mem_append.mp hz with h | h
        · exact (hq.2.2 z h x (List.mem_cons_self _ _)).symm
        · exact List.rel_of_pairwise_cons hq.2.1 h
      exact ⟨size_of_mergeNodes_sep _ _ _ _ hsx, next_of_mergeNodes_sep _ _ _ _ hsx⟩
    · intro a ha
      exact mergeNodes_out _ _ _ _ ha
    · intro hpre
      subst hpre
      simp only [List.nil_append, List.cons.injEq] at h1
      obtain ⟨rfl, -⟩ := h1
      exact ⟨rfl, h3.symm⟩

/-- C19: for every `size` with `2 * sizeof(header_t) + size <= HEAP_SIZE`, on
a fresh heap `p = my_malloc(size)` returns `base + sizeof(header_t)`,
`my_free(p)` leaves the free list as it was initially (a single node at the
region base of size `HEAP_SIZE - sizeof(node_t)` without successor), and a
further `my_malloc(size)` returns the same pointer `p`. -/
theorem C19_malloc_free_roundtrip (cfg : Cfg) (fuel size : Nat) (s0 : Heap)
    (hm : cfg.MagicOK) (h0 : s0.head = 0) (hr : cfg.RegionOK s0.regions)
    (hs : 2 * sizeof_header_t + size ≤ cfg.HEAP_SIZE) (hf : 1 ≤ fuel) :
    ∃ s1 s2 s3,
      my_malloc cfg fuel size (heap cfg s0) = .ok (cfg.mmap s0.regions + sizeof_header_t, s1) ∧
      my_malloc cfg fuel size s0 = .ok (cfg.mmap s0.regions + sizeof_header_t, s1) ∧
      my_free cfg fuel (cfg.mmap s0.regions + sizeof_header_t) s1 = .ok s2 ∧
      s2.head = (heap cfg s0).head ∧
      IsList (heap cfg s0).mem (heap cfg s0).head [cfg.mmap s0.regions] ∧
      IsList s2.mem s2.head [cfg.mmap s0.regions] ∧
      size_of (heap cfg s0).mem (cfg.mmap s0.regions) = cfg.HEAP_SIZE - sizeof_node_t ∧
      size_of s2.mem (cfg.mmap s0.regions) = cfg.HEAP_SIZE - sizeof_node_t ∧
      my_malloc cfg fuel size s2 = .ok (cfg.mmap s0.regions + sizeof_header_t, s3) := by
  have hWv := W_val
  simp only [sizeof_header_t, sizeof_node_t] at hs ⊢
  obtain ⟨hh, hh0, hsz, hzero, hlist0⟩ := heap_fresh_block cfg s0 h0 hr (by omega)
  have hcall : my_malloc cfg fuel size s0 = my_malloc cfg fuel size (heap cfg s0) :=
    my_malloc_heap cfg fuel size s0 hh0
  have hb0 : cfg.mmap s0.regions ≠ 0 := hr.1
  have hbW : cfg.mmap s0.regions + cfg.HEAP_SIZE < W := hr.2
  generalize cfg.mmap s0.regions = b at *
  generalize cfg.HEAP_SIZE = H at *
  obtain ⟨s1, h1, h1h, -, h1s, h1n, h1hs, h1m, -, -⟩ :=
    my_malloc_head_zero cfg fuel size b (H - 16) (heap cfg s0) hm hf hh hb0 (by omega)
      hsz (by omega) hzero
  obtain ⟨s2, h2, h2h, -, h2s, h2n, -⟩ :=
    my_free_adjacent_head cfg fuel b s1 hf
      (by simp only [sizeof_header_t]; omega) h1m (by rw [h1h]; omega) (by rw [h1h]; omega)
      (by rw [h1hs, h1h]) (by rw [h1hs, h1h, h1s]; omega)
  rw [h1hs, h1h, h1s] at h2s
  rw [h1h, h1n] at h2n
  have h2ne : s2.head ≠ 0 := by rw [h2h]; exact hb0
  obtain ⟨f, rfl⟩ : ∃ f, fuel = f + 1 := ⟨fuel - 1, by omega⟩
  have hsp : (sizeof_header_t + size) % W = 16 + size := by
    simp only [sizeof_header_t]; exact Nat.mod_eq_of_lt (by omega)
  have hff : find_free cfg (f + 1) size 0 0 s2 = (.ok (b, 0), s2) := by
    rw [find_free_of_ne cfg _ _ _ _ s2 h2ne, hsp]
    have : 16 + size ≤ size_of s2.mem b := by rw [h2s]; omega
    simp [find_free_loop, h2h, hb0, this]
  obtain ⟨s3, h3, -⟩ := my_malloc_of_find cfg (f + 1) size s2 s2 b 0 hff hb0
  have hret : (b + sizeof_header_t) % W = b + 16 := by
    simp only [sizeof_header_t]; exact Nat.mod_eq_of_lt (by omega)
  rw [hret] at h3
  refine ⟨s1, s2, s3, h1, by rw [hcall, h1], h2, by rw [h2h, hh], hlist0, ⟨h2h, hb0, h2n⟩,
    hsz, by rw [h2s]; omega, h3⟩

/-- Witness for C19: 100 bytes on the page-sized heap. -/
theorem C19_malloc_free_roundtrip_witness :
    cfgPage.MagicOK ∧ cfgPage.RegionOK 0 ∧ 2 * sizeof_header_t + 100 ≤ cfgPage.HEAP_SIZE ∧
    ∃ s1 s2 s3,
      my_malloc cfgPage 1 100 (heap cfgPage (Heap.initial zeroMem))
        = .ok (cfgPage.mmap 0 + sizeof_header_t, s1) ∧
      my_malloc cfgPage 1 100 (Heap.initial zeroMem)
        = .ok (cfgPage.mmap 0 + sizeof_header_t, s1) ∧
      my_free cfgPage 1 (cfgPage.mmap 0 + sizeof_header_t) s1 = .ok s2 ∧
      s2.head = (heap cfgPage (Heap.initial zeroMem)).head ∧
      IsList (heap cfgPage (Heap.initial zeroMem)).mem (heap cfgPage (Heap.initial zeroMem)).head
        [cfgPage.mmap 0] ∧
      IsList s2.mem s2.head [cfgPage.mmap 0] ∧
      size_of (heap cfgPage (Heap.initial zeroMem)).mem (cfgPage.mmap 0)
        = cfgPage.HEAP_SIZE - sizeof_node_t ∧
      size_of s2.mem (cfgPage.mmap 0) = cfgPage.HEAP_SIZE - sizeof_node_t ∧
      my_malloc cfgPage 1 100 s2 = .ok (cfgPage.mmap 0 + sizeof_header_t, s3) :=
  ⟨by decide, by decide, by decide,
   C19_malloc_free_roundtrip cfgPage 1 100 (Heap.initial zeroMem) (by decide) rfl (by decide)
     (by decide) (by decide)⟩

/-- C20: for every list of sizes whose footprints sum to at most
`HEAP_SIZE - sizeof(header_t)`, allocating them in order on a fresh heap
returns for the `i`-th call `base + (footprint of the earlier calls) +
sizeof(header_t)`, and after each call the free list is the single node at
`base + (footprint so far)` of size
`HEAP_SIZE - sizeof(header_t) - (footprint so far)`. -/
theorem C20_contiguous_layout (cfg : Cfg) (fuel : Nat) (s0 : Heap) (sizes : List Nat)
    (hm : cfg.MagicOK) (h0 : s0.head = 0) (hr : cfg.RegionOK s0.regions)
    (hH : sizeof_header_t ≤ cfg.HEAP_SIZE)
    (hsum : footprint sizes ≤ cfg.HEAP_SIZE - sizeof_header_t) (hf : 1 ≤ fuel) :
    (∀ i, i < sizes.length →
      (offsets (cfg.mmap s0.regions) sizes)[i]?
        = some (cfg.mmap s0.regions + footprint (sizes.take i) + sizeof_header_t)) ∧
    (∀ i, i ≤ sizes.length →
      ∃ s2, run cfg fuel ((sizes.take i).map Op.malloc) (heap cfg s0) []
          = .ok (s2, (offsets (cfg.mmap s0.regions) sizes).take i) ∧
        IsList s2.mem s2.head [cfg.mmap s0.regions + footprint (sizes.take i)] ∧
        size_of s2.mem (cfg.mmap s0.regions + footprint (sizes.take i))
          = cfg.HEAP_SIZE - sizeof_header_t - footprint (sizes.take i)) := by
  refine ⟨fun i hi => offsets_get sizes _ i hi, ?_⟩
  intro i hi
  have hWv := W_val
  simp only [sizeof_header_t] at hH hsum ⊢
  obtain ⟨hh, hh0, hsz, hzero, hlist0⟩ := heap_fresh_block cfg s0 h0 hr hH
  have hb0 : cfg.mmap s0.regions ≠ 0 := hr.1
  have hbW : cfg.mmap s0.regions + cfg.HEAP_SIZE < W := hr.2
  have hle := footprint_take_le sizes i
  obtain ⟨s2, h2, h2h, -, h2s, h2n⟩ :=
    run_mallocs cfg fuel hm hf (sizes.take i) (cfg.mmap s0.regions) (cfg.HEAP_SIZE - 16)
      (heap cfg s0) [] hh hb0 (by omega) hsz hlist0.2.2 hzero (by omega)
  refine ⟨s2, ?_, ⟨h2h, by omega, h2n⟩, h2s⟩
  rw [h2, List.nil_append, offsets_take]

/-- Witness for C20: allocations of 10, 20 and 30 bytes on the page-sized heap. -/
theorem C20_contiguous_layout_witness :
    cfgPage.MagicOK ∧ cfgPage.RegionOK 0 ∧
    footprint [10, 20, 30] ≤ cfgPage.HEAP_SIZE - sizeof_header_t ∧
    ∃ s2, run cfgPage 1 (([10, 20, 30].take 3).map Op.malloc) (heap cfgPage (Heap.initial zeroMem))
        [] = .ok (s2, (offsets (cfgPage.mmap 0) [10, 20, 30]).take 3) ∧
      IsList s2.mem s2.head [cfgPage.mmap 0 + footprint ([10, 20, 30].take 3)] ∧
      size_of s2.mem (cfgPage.mmap 0 + footprint ([10, 20, 30].take 3))
        = cfgPage.HEAP_SIZE - sizeof_header_t - footprint ([10, 20, 30].take 3) :=
  ⟨by decide, by decide, by decide,
   (C20_contiguous_layout cfgPage 1 (Heap.initial zeroMem) [10, 20, 30] (by decide) rfl
     (by decide) (by decide) (by decide) (by decide)).2 3 (by decide)⟩

end MyMalloc
